import Mathlib

/-! Receipt processor: the points engine of `main.go`.

A shallow embedding of `calculatePoints` (main.go 72-122) together with the
parts of the Go standard library it calls: `strconv.ParseFloat`, `math.Mod`,
`math.Ceil`, float64 arithmetic and conversions, `regexp.FindAllString` for a
single character class, `strings.TrimSpace` and `time.Parse` for the two
layouts the program uses.

Conventions.
* A Go `string` that came out of `encoding/json` is valid UTF-8; it is a Lean
  `String`, read as its list of characters. `len` is the number of UTF-8 bytes.
  The library parsers below work on bytes in Go; every byte of a multi-byte
  character is at least 0x80 and therefore fails every ASCII test exactly as
  the character itself does here.
* Go `int` is 64 bits wide: every `+=` on an `int` is wrapped by `wrapInt`.
* A float64 is `F64`: a finite value carried as the rational it denotes, an
  infinity, or NaN. Rounding is round-to-nearest, ties to even, on the
  binary64 grid.
* What Go leaves to the implementation, the result of `int(x)` for a float
  that does not fit, is a parameter `impl` of the model.
* The library is that of Go 1.13 or later (hexadecimal floats and
  underscores in `strconv.ParseFloat`).
-/

namespace ReceiptProcessor

/-! ## Data model (main.go 16-27) -/

/-- The struct `Item` of main.go 24-27. -/
structure Item where
  ShortDescription : String
  Price : String
deriving DecidableEq, Repr

/-- The struct `Receipt` of main.go 16-22. -/
structure Receipt where
  Retailer : String
  PurchaseDate : String
  PurchaseTime : String
  Items : List Item
  Total : String
deriving DecidableEq, Repr

/-! ## Go `int` -/

/-- The value of a 64-bit two's complement `int` holding the mathematical
integer `n` after wrap-around. -/
def wrapInt (n : ℤ) : ℤ := (n + 2 ^ 63) % 2 ^ 64 - 2 ^ 63

/-- Number of UTF-8 bytes of a character. -/
def utf8Width (c : Char) : ℕ :=
  if c.toNat < 128 then 1 else if c.toNat < 2048 then 2 else if c.toNat < 65536 then 3 else 4

/-- Go `len` on a string: its number of bytes. -/
def len (s : List Char) : ℤ := ((s.map utf8Width).sum : ℕ)

/-! ## float64 -/

/-- A float64 value. `fin q` is the finite double whose value is `q`; the two
zeros are one value here, as `==`, conversion to `int`, `math.Ceil` and
`math.Mod` give results that `calculatePoints` cannot tell apart on them. -/
inductive F64 where
  | fin (q : ℚ)
  | inf (neg : Bool)
  | nan
deriving DecidableEq, Repr

/-- The power of two `2 ^ e` as a rational, computed on naturals. -/
def pow2 (e : ℤ) : ℚ :=
  if 0 ≤ e then ((2 ^ e.toNat : ℕ) : ℚ) else 1 / ((2 ^ (-e).toNat : ℕ) : ℚ)

/-- Halving `n` until it is below 2, at most `fuel` times. -/
def log2Fuel : ℕ → ℕ → ℕ
  | 0, _ => 0
  | fuel + 1, n => if 2 ≤ n then log2Fuel fuel (n / 2) + 1 else 0

/-- For `n > 0`, the natural `k` with `2 ^ k ≤ n < 2 ^ (k + 1)`. -/
def natLog2 (n : ℕ) : ℕ := log2Fuel n n

/-- For `q > 0`, the integer `k` with `2 ^ k ≤ q < 2 ^ (k + 1)`. -/
def ilog2 (q : ℚ) : ℤ :=
  let k : ℤ := (natLog2 q.num.natAbs : ℤ) - (natLog2 q.den : ℤ)
  if pow2 k ≤ q then k else k - 1

/-- Exponent of the unit in the last place of the binary64 grid around
`q > 0`: 53 significant bits, and never below the subnormal spacing
`2 ^ (-1074)`. -/
def ulpExp (q : ℚ) : ℤ := max (ilog2 q - 52) (-1074)

/-- Nearest integer, ties to the even one. -/
def roundHalfEven (t : ℚ) : ℤ :=
  let n := ⌊t⌋
  let r := t - n
  if r < 1 / 2 then n
  else if 1 / 2 < r then n + 1
  else if n % 2 = 0 then n else n + 1

/-- The point of the (unbounded-exponent) binary64 grid nearest to `q > 0`. -/
def roundMag (q : ℚ) : ℚ :=
  (roundHalfEven (q / pow2 (ulpExp q)) : ℚ) * pow2 (ulpExp q)

/-- IEEE 754 round-to-nearest-even of an exact value into binary64: a result
of magnitude `2 ^ 1024` or more overflows to the infinity of that sign. -/
def F64.round (q : ℚ) : F64 :=
  if q = 0 then .fin 0
  else
    let m := roundMag |q|
    if pow2 1024 ≤ m then .inf (decide (q < 0))
    else .fin (if q < 0 then -m else m)

/-- Truncation toward zero. -/
def truncQ (q : ℚ) : ℤ := if 0 ≤ q then ⌊q⌋ else ⌈q⌉

/-- Float64 multiplication `x * y`. -/
def F64.mul : F64 → F64 → F64
  | .fin a, .fin b => F64.round (a * b)
  | .fin a, .inf s => if a = 0 then .nan else .inf (xor (decide (a < 0)) s)
  | .inf s, .fin b => if b = 0 then .nan else .inf (xor s (decide (b < 0)))
  | .inf s, .inf t => .inf (xor s t)
  | .nan, _ => .nan
  | _, .nan => .nan

/-- Float64 comparison `x == y`: NaN equals nothing. -/
def F64.eq : F64 → F64 → Bool
  | .fin a, .fin b => decide (a = b)
  | .inf s, .inf t => s == t
  | _, _ => false

/-- Function `math.Ceil`: `Ceil(±Inf) = ±Inf`, `Ceil(NaN) = NaN`. The ceiling
of a finite double is a double, so no rounding takes place. -/
def Ceil : F64 → F64
  | .fin q => .fin (⌈q⌉ : ℤ)
  | x => x

/-- Function `math.Mod(x, y)`: the remainder of `x / y` with the sign of `x`,
which is exact. Special cases: `Mod(±Inf, y) = NaN`, `Mod(NaN, y) = NaN`,
`Mod(x, 0) = NaN`, `Mod(x, ±Inf) = x`, `Mod(x, NaN) = NaN`. -/
def Mod : F64 → F64 → F64
  | .nan, _ => .nan
  | .inf _, _ => .nan
  | .fin _, .nan => .nan
  | .fin a, .inf _ => .fin a
  | .fin a, .fin b => if b = 0 then .nan else .fin (a - b * (truncQ (a / b) : ℚ))

/-- The conversion `int(x)` of a float64. A finite value whose truncation
fits in 64 bits converts to it; for every other value the Go specification
leaves the result to the implementation, and `impl` supplies it (wrapped
into the range of `int`). -/
def F64.toInt (impl : F64 → ℤ) : F64 → ℤ
  | .fin q =>
    if -(2 : ℤ) ^ 63 ≤ truncQ q ∧ truncQ q < 2 ^ 63 then truncQ q else wrapInt (impl (.fin q))
  | x => wrapInt (impl x)

/-- The conversion `float64(n)` of an `int`. -/
def F64.ofInt (n : ℤ) : F64 := F64.round (n : ℚ)

/-- What amd64 does for a conversion that does not fit: the result is the
smallest `int`. -/
def implAmd64 : F64 → ℤ := fun _ => -(2 : ℤ) ^ 63

/-- What arm64 does for a conversion that does not fit: the result saturates,
and NaN gives 0. -/
def implArm64 : F64 → ℤ
  | .fin q => if q < 0 then -(2 : ℤ) ^ 63 else 2 ^ 63 - 1
  | .inf neg => if neg then -(2 : ℤ) ^ 63 else 2 ^ 63 - 1
  | .nan => 0

/-! ## `strconv.ParseFloat` -/

/-- The two errors of `strconv`. -/
inductive NumError where
  | ErrSyntax
  | ErrRange
deriving DecidableEq, Repr

/-- ASCII decimal digit. -/
def isDigit (c : Char) : Bool := decide (48 ≤ c.toNat ∧ c.toNat ≤ 57)

/-- The `lower` of strconv: `c | ('x' - 'X')`, as a character code. -/
def lower (c : Char) : ℕ := c.toNat ||| 32

/-- Length of the common prefix of `s` and the lower-case word `word`,
ignoring the case of ASCII letters in `s`. -/
def commonPrefixLenIgnoreCase : List Char → List Char → ℕ
  | c :: s, p :: word =>
    let c1 := if 65 ≤ c.toNat ∧ c.toNat ≤ 90 then c.toNat + 32 else c.toNat
    if c1 = p.toNat then 1 + commonPrefixLenIgnoreCase s word else 0
  | _, _ => 0

/-- The `inf`/`infinity` branch of `special`, after an optional sign: the
value and the unread rest. -/
def specialInf (neg : Bool) (s : List Char) : Option (F64 × List Char) :=
  let n := commonPrefixLenIgnoreCase s ['i', 'n', 'f', 'i', 'n', 'i', 't', 'y']
  let n := if 3 < n ∧ n < 8 then 3 else n
  if n = 3 ∨ n = 8 then some (.inf neg, s.drop n) else none

/-- Function `special` of strconv/atof.go: the possibly signed words `inf`,
`infinity` and the unsigned `nan`, in any case, at the start of `s`. -/
def special : List Char → Option (F64 × List Char)
  | [] => none
  | c :: s =>
    if c = '+' then specialInf false s
    else if c = '-' then specialInf true s
    else if c = 'i' ∨ c = 'I' then specialInf false (c :: s)
    else if c = 'n' ∨ c = 'N' then
      if commonPrefixLenIgnoreCase (c :: s) ['n', 'a', 'n'] = 3 then some (.nan, s.drop 2)
      else none
    else none

/-- The loop state of `readFloat` while it reads the mantissa. The mantissa
keeps every digit: `readFloat` itself keeps 19 (or 16 hexadecimal) digits and
flags the truncation, and `atof64` then rounds from the full digit string. -/
structure Digits where
  mantissa : ℕ
  nd : ℤ
  dp : ℤ
  sawdot : Bool
  sawdigits : Bool
  underscores : Bool
deriving DecidableEq, Repr

/-- The mantissa loop of `readFloat` in base `base` (10 or 16). -/
def readDigits (base : ℕ) : List Char → Digits → Digits × List Char
  | [], st => (st, [])
  | c :: cs, st =>
    if c = '_' then readDigits base cs { st with underscores := true }
    else if c = '.' then
      if st.sawdot then (st, c :: cs)
      else readDigits base cs { st with sawdot := true, dp := st.nd }
    else if isDigit c then
      if c = '0' ∧ st.nd = 0 then
        readDigits base cs { st with sawdigits := true, dp := st.dp - 1 }
      else
        readDigits base cs
          { st with sawdigits := true, nd := st.nd + 1,
                    mantissa := st.mantissa * base + (c.toNat - 48) }
    else if base = 16 ∧ 97 ≤ lower c ∧ lower c ≤ 102 then
      readDigits base cs
        { st with sawdigits := true, nd := st.nd + 1,
                  mantissa := st.mantissa * 16 + (lower c - 97 + 10) }
    else (st, c :: cs)

/-- The exponent-digit loop of `readFloat`: the exponent stops growing once
it has reached 10000. -/
def readExpDigits : List Char → ℕ → Bool → ℕ × Bool × List Char
  | [], e, us => (e, us, [])
  | c :: cs, e, us =>
    if c = '_' then readExpDigits cs e true
    else if isDigit c then
      readExpDigits cs (if e < 10000 then e * 10 + (c.toNat - 48) else e) us
    else (e, us, c :: cs)

/-- The main loop of `underscoreOK`; `saw` is `'^'`, `'0'`, `'_'` or `'!'`. -/
def underscoreLoop (hex : Bool) : List Char → Char → Bool
  | [], saw => saw ≠ '_'
  | c :: cs, saw =>
    if isDigit c ∨ (hex = true ∧ 97 ≤ lower c ∧ lower c ≤ 102) then underscoreLoop hex cs '0'
    else if c = '_' then
      if saw ≠ '0' then false else underscoreLoop hex cs '_'
    else if saw = '_' then false
    else underscoreLoop hex cs '!'

/-- Function `underscoreOK` of strconv: underscores only between digits, or
between a base prefix and a digit. -/
def underscoreOK (s : List Char) : Bool :=
  let s := match s with
    | c :: t => if c = '-' ∨ c = '+' then t else s
    | [] => s
  match s with
  | c :: x :: t =>
    if c = '0' ∧ (lower x = 98 ∨ lower x = 111 ∨ lower x = 120) then
      underscoreLoop (lower x = 120) t '0'
    else underscoreLoop false s '^'
  | _ => underscoreLoop false s '^'

/-- What `readFloat` hands back when it succeeds: the sign, the base, the
full mantissa, the exponent of the base (10, or 2 for a hexadecimal literal)
and the unread rest. -/
structure FloatLit where
  neg : Bool
  hex : Bool
  mantissa : ℕ
  exp : ℤ
  rest : List Char
deriving DecidableEq, Repr

/-- Function `readFloat` of strconv/atof.go. `none` is `ok = false`. -/
def readFloat (s : List Char) : Option FloatLit :=
  match s with
  | [] => none
  | c0 :: t0 =>
    let neg := decide (c0 = '-')
    let s1 := if c0 = '+' ∨ c0 = '-' then t0 else s
    let hex : Bool := match s1 with
      | c :: x :: _ :: _ => decide (c = '0' ∧ lower x = 120)
      | _ => false
    let s2 := if hex then s1.drop 2 else s1
    let base : ℕ := if hex then 16 else 10
    let (st, s3) := readDigits base s2 ⟨0, 0, 0, false, false, false⟩
    if st.sawdigits = false then none
    else
      let dp0 : ℤ := if st.sawdot then st.dp else st.nd
      let dp1 : ℤ := if hex then dp0 * 4 else dp0
      let nd1 : ℤ := if hex then st.nd * 4 else st.nd
      let expChar : ℕ := if hex then 112 else 101
      let finish (dp : ℤ) (us : Bool) (rest : List Char) : Option FloatLit :=
        if us = true ∧ underscoreOK (s.take (s.length - rest.length)) = false then none
        else some ⟨neg, hex, st.mantissa, if st.mantissa ≠ 0 then dp - nd1 else 0, rest⟩
      match s3 with
      | c :: t3 =>
        if lower c = expChar then
          match t3 with
          | [] => none
          | d :: t4 =>
            let esign : ℤ := if d = '-' then -1 else 1
            let s4 := if d = '+' ∨ d = '-' then t4 else t3
            match s4 with
            | [] => none
            | d1 :: _ =>
              if isDigit d1 = false then none
              else
                let (e, us, rest) := readExpDigits s4 0 st.underscores
                finish (dp1 + (e : ℤ) * esign) us rest
        else if hex then none
        else finish dp1 st.underscores s3
      | [] => if hex then none else finish dp1 st.underscores s3

/-- The exact value a literal denotes. -/
def FloatLit.value (l : FloatLit) : ℚ :=
  let b : ℚ := if l.hex then 2 else 10
  let m : ℚ := if 0 ≤ l.exp then (l.mantissa : ℚ) * b ^ l.exp.toNat
    else (l.mantissa : ℚ) / b ^ (-l.exp).toNat
  if l.neg then -m else m

/-- Function `atof64` of strconv/atof.go: the value, the unread rest and the
error. Every conversion path of the original (exact, Eisel-Lemire, decimal
fallback, `atofHex`) returns the correctly rounded double, so one rounding
stands for them; overflow gives the infinity together with `ErrRange`. -/
def atof64 (s : List Char) : F64 × List Char × Option NumError :=
  match special s with
  | some (v, rest) => (v, rest, none)
  | none =>
    match readFloat s with
    | none => (.fin 0, s, some .ErrSyntax)
    | some l =>
      match F64.round l.value with
      | .inf neg => (.inf neg, l.rest, some .ErrRange)
      | f => (f, l.rest, none)

/-- Function `strconv.ParseFloat(s, 64)`: text left over after the number is
a syntax error, and a syntax error returns 0. -/
def ParseFloat (s : String) : F64 × Option NumError :=
  match atof64 s.data with
  | (f, rest, err) =>
    if rest ≠ [] ∧ err ≠ some .ErrSyntax then (.fin 0, some .ErrSyntax) else (f, err)

/-! ## `regexp` and `strings` -/

/-- The character class `[a-zA-Z0-9]` of the pattern in main.go 76. -/
def alnumClass (c : Char) : Bool :=
  decide ((97 ≤ c.toNat ∧ c.toNat ≤ 122) ∨ (65 ≤ c.toNat ∧ c.toNat ≤ 90) ∨
    (48 ≤ c.toNat ∧ c.toNat ≤ 57))

/-- Function `FindAllString(s, -1)` for a pattern that is one character
class: the successive non-overlapping matches, each one character long. -/
def FindAllString (cls : Char → Bool) : List Char → List String
  | [] => []
  | c :: cs => if cls c then String.singleton c :: FindAllString cls cs else FindAllString cls cs

/-- Function `unicode.IsSpace`: the characters with the White_Space
property. -/
def isSpace (c : Char) : Bool :=
  let n := c.toNat
  decide ((9 ≤ n ∧ n ≤ 13) ∨ n = 32 ∨ n = 0x85 ∨ n = 0xA0 ∨ n = 0x1680 ∨
    (0x2000 ≤ n ∧ n ≤ 0x200A) ∨ n = 0x2028 ∨ n = 0x2029 ∨ n = 0x202F ∨ n = 0x205F ∨
    n = 0x3000)

/-- Function `strings.TrimSpace`: the string without its leading and
trailing white space. -/
def TrimSpace (s : List Char) : List Char :=
  ((s.dropWhile isSpace).reverse.dropWhile isSpace).reverse

/-! ## `time.Parse` -/

/-- A `time.Time` in UTC, as the civil fields its accessors return. -/
structure Time where
  year : ℤ
  month : ℤ
  day : ℤ
  hour : ℤ
  minute : ℤ
deriving DecidableEq, Repr

/-- The zero `Time{}`: January 1, year 1, 00:00 UTC. `time.Parse` returns it
with every error. -/
def zeroTime : Time := ⟨1, 1, 1, 0, 0⟩

/-- Method `Time.Day`. -/
def Time.Day (t : Time) : ℤ := t.day

/-- Method `Time.Hour`. -/
def Time.Hour (t : Time) : ℤ := t.hour

/-- The layout elements `nextStdChunk` finds in the layouts `2006-01-02` and
`15:04`, and the literal text between them. -/
inductive Chunk where
  | stdLongYear
  | stdZeroMonth
  | stdZeroDay
  | stdHour
  | stdZeroMinute
  | lit (c : Char)
deriving DecidableEq, Repr

/-- Layout `"2006-01-02"` of main.go 107. -/
def layoutDate : List Chunk :=
  [.stdLongYear, .lit '-', .stdZeroMonth, .lit '-', .stdZeroDay]

/-- Layout `"15:04"` of main.go 115. -/
def layoutClock : List Chunk := [.stdHour, .lit ':', .stdZeroMinute]

/-- The value of an ASCII digit. -/
def digitVal (c : Char) : ℤ := ((c.toNat - 48 : ℕ) : ℤ)

/-- Function `getnum` of time/format.go: a one- or two-digit number, two
digits exactly when `fixed`. `none` is `errBad`. -/
def getnum (s : List Char) (fixed : Bool) : Option (ℤ × List Char) :=
  match s with
  | [] => none
  | c :: t =>
    if isDigit c = false then none
    else
      match t with
      | d :: u =>
        if isDigit d then some (digitVal c * 10 + digitVal d, u)
        else if fixed then none else some (digitVal c, t)
      | [] => if fixed then none else some (digitVal c, t)

/-- Function `isLeap` of package time. -/
def isLeap (year : ℤ) : Bool := decide (year % 4 = 0 ∧ (year % 100 ≠ 0 ∨ year % 400 = 0))

/-- Function `daysIn` of package time. -/
def daysIn (m : ℤ) (year : ℤ) : ℤ :=
  if m = 2 then (if isLeap year then 29 else 28)
  else if m = 4 ∨ m = 6 ∨ m = 9 ∨ m = 11 then 30 else 31

/-- The fields `Parse` fills in while it walks the layout; month and day
start at -1 and default to 1 when the layout has none. -/
structure Fields where
  year : ℤ
  month : ℤ
  day : ℤ
  hour : ℤ
  min : ℤ
deriving DecidableEq, Repr

/-- The loop of `time.Parse` over the chunks of the layout. `none` is a
return with an error from inside the loop (bad text, a field out of range,
or text left over). -/
def parseLoop : List Chunk → List Char → Fields → Option Fields
  | [], value, f => if value = [] then some f else none
  | .lit c :: layout, value, f =>
    match value with
    | v :: rest => if v = c then parseLoop layout rest f else none
    | [] => none
  | .stdLongYear :: layout, value, f =>
    match value with
    | a :: b :: c :: d :: rest =>
      if isDigit a ∧ isDigit b ∧ isDigit c ∧ isDigit d then
        parseLoop layout rest
          { f with year := digitVal a * 1000 + digitVal b * 100 + digitVal c * 10 + digitVal d }
      else none
    | _ => none
  | .stdZeroMonth :: layout, value, f =>
    match getnum value true with
    | some (month, rest) =>
      if month ≤ 0 ∨ 12 < month then none else parseLoop layout rest { f with month := month }
    | none => none
  | .stdZeroDay :: layout, value, f =>
    match getnum value true with
    | some (day, rest) => parseLoop layout rest { f with day := day }
    | none => none
  | .stdHour :: layout, value, f =>
    match getnum value false with
    | some (hour, rest) =>
      if hour < 0 ∨ 24 ≤ hour then none else parseLoop layout rest { f with hour := hour }
    | none => none
  | .stdZeroMinute :: layout, value, f =>
    match getnum value true with
    | some (min, rest) =>
      if min < 0 ∨ 60 ≤ min then none else parseLoop layout rest { f with min := min }
    | none => none

/-- Function `time.Parse(layout, value)`: the time and whether an error came
with it. After the loop the day of the month is validated against the month
and year; the location is UTC. -/
def Parse (layout : List Chunk) (value : String) : Time × Bool :=
  match parseLoop layout value.data ⟨0, -1, -1, 0, 0⟩ with
  | none => (zeroTime, true)
  | some f =>
    let month := if f.month < 0 then 1 else f.month
    let day := if f.day < 0 then 1 else f.day
    if day < 1 ∨ daysIn month f.year < day then (zeroTime, true)
    else (⟨f.year, month, day, f.hour, f.min⟩, false)

/-! ## `calculatePoints` (main.go 72-122) -/

/-- Rule 1, main.go 76: `retailerPoints`. -/
def retailerPoints (receipt : Receipt) : ℤ :=
  (FindAllString alnumClass receipt.Retailer.data).length

/-- The `total` of main.go 80: the parsed total, the error dropped. -/
def parsedTotal (receipt : Receipt) : F64 := (ParseFloat receipt.Total).1

/-- Rule 2, main.go 81-83: 50 when `total == float64(int(total))`. -/
def roundDollarPoints (impl : F64 → ℤ) (receipt : Receipt) : ℤ :=
  let total := parsedTotal receipt
  if F64.eq total (F64.ofInt (F64.toInt impl total)) then 50 else 0

/-- The constant `0.25` as a float64. -/
def quarter : F64 := .fin (1 / 4)

/-- The constant `0.2` as a float64: the double nearest to one fifth. -/
def fifth : F64 := F64.round (1 / 5)

/-- Rule 3, main.go 86-88: 25 when `math.Mod(total, 0.25) == 0`. -/
def quarterPoints (receipt : Receipt) : ℤ :=
  if F64.eq (Mod (parsedTotal receipt) quarter) (.fin 0) then 25 else 0

/-- Rule 4, main.go 91: `pairPoints`. The length of a slice of 32-byte
structs is far below `2 ^ 61`, so the product does not wrap. -/
def pairPoints (receipt : Receipt) : ℤ := ((receipt.Items.length : ℤ) / 2) * 5

/-- Whether an item passes the test of main.go 97-98. -/
def qualifies (item : Item) : Bool :=
  decide (len (TrimSpace item.ShortDescription.data) % 3 = 0)

/-- The `math.Ceil(price * 0.2)` of main.go 99-100. -/
def itemCeil (item : Item) : F64 :=
  let price := (ParseFloat item.Price).1
  Ceil (F64.mul price fifth)

/-- The `itemPoints` of main.go 100. -/
def itemPoints (impl : F64 → ℤ) (item : Item) : ℤ := F64.toInt impl (itemCeil item)

/-- The loop of main.go 96-103, from a running `descriptionPoints`. -/
def descriptionLoop (impl : F64 → ℤ) : List Item → ℤ → ℤ
  | [], acc => acc
  | item :: rest, acc =>
    if qualifies item then descriptionLoop impl rest (wrapInt (acc + itemPoints impl item))
    else descriptionLoop impl rest acc

/-- Rule 5, main.go 95-103: `descriptionPoints`. -/
def descriptionPoints (impl : F64 → ℤ) (receipt : Receipt) : ℤ :=
  descriptionLoop impl receipt.Items 0

/-- Rule 6, main.go 107-112: `oddDayPoints`. -/
def oddDayPoints (receipt : Receipt) : ℤ :=
  let date := (Parse layoutDate receipt.PurchaseDate).1
  if date.Day % 2 = 1 then 6 else 0

/-- Rule 7, main.go 115-120: `timeBonus`. -/
def timeBonus (receipt : Receipt) : ℤ :=
  let timeParts := (Parse layoutClock receipt.PurchaseTime).1
  if timeParts.Hour ≥ 14 ∧ timeParts.Hour < 16 then 10 else 0

/-- Function `calculatePoints` of main.go 72-122. -/
def calculatePoints (impl : F64 → ℤ) (receipt : Receipt) : ℤ :=
  let points : ℤ := 0
  let points := wrapInt (points + retailerPoints receipt)
  let points := wrapInt (points + roundDollarPoints impl receipt)
  let points := wrapInt (points + quarterPoints receipt)
  let points := wrapInt (points + pairPoints receipt)
  let points := wrapInt (points + descriptionPoints impl receipt)
  let points := wrapInt (points + oddDayPoints receipt)
  let points := wrapInt (points + timeBonus receipt)
  points

/-! ## The store and the handlers (main.go 37-70, 124-128)

The handlers run one at a time here: the mutex of main.go 39 makes every map
access atomic, and a handler is its effect on the map together with its
response. The JSON decoder and the UUID generator are inputs of the model. -/

/-- A Go `string` taken as its bytes: a request path or a key of the map,
which need not be valid UTF-8. -/
abbrev GoString := List UInt8

/-- The bytes of a string literal. -/
def bytes (s : String) : GoString := s.data.flatMap String.utf8EncodeChar

/-- The map `receipts` of main.go 38: what each key maps to, if anything. -/
abbrev Store := GoString → Option Receipt

/-- The map `make(map[string]Receipt)` the program starts with. -/
def emptyStore : Store := fun _ => none

/-- The assignment `receipts[id] = receipt` of main.go 51. -/
def Store.set (receipts : Store) (id : GoString) (receipt : Receipt) : Store :=
  fun k => if k = id then some receipt else receipts k

/-- What a handler writes as the body: the message of `http.Error`, or the
JSON encoding of a `ResponseID` or of a `PointsResponse` (main.go 29-35). -/
inductive Body where
  | text (msg : String)
  | ResponseID (ID : GoString)
  | PointsResponse (Points : ℤ)
deriving DecidableEq

/-- The status code and the body a handler answers with. -/
structure Response where
  status : ℕ
  body : Body
deriving DecidableEq

/-- The slice expression `s[low:high]` of a string: `none` is the run-time
panic for indices that are not `0 ≤ low ≤ high ≤ len(s)`. -/
def slice (s : GoString) (low high : ℤ) : Option GoString :=
  if 0 ≤ low ∧ low ≤ high ∧ high ≤ (s.length : ℤ) then
    some ((s.drop low.toNat).take (high - low).toNat)
  else none

/-- Function `processReceipt` of main.go 42-55: the map afterwards and the
response. `Decode` is `json.NewDecoder(r.Body).Decode`, `none` being its
error; `newUUID` is the value of `uuid.New().String()`. -/
def processReceipt (Decode : GoString → Option Receipt) (newUUID : GoString)
    (body : GoString) (receipts : Store) : Store × Response :=
  match Decode body with
  | none => (receipts, ⟨400, .text "Invalid request"⟩)
  | some receipt => (receipts.set newUUID receipt, ⟨200, .ResponseID newUUID⟩)

/-- The `id` of main.go 58:
`r.URL.Path[len("/receipts/") : len(r.URL.Path)-len("/points")]`. -/
def pathID (path : GoString) : Option GoString :=
  slice path ((bytes "/receipts/").length : ℤ)
    ((path.length : ℤ) - ((bytes "/points").length : ℤ))

/-- Function `getPoints` of main.go 57-70 on the request path: the map
afterwards and the response, or `none` when the handler panics. -/
def getPoints (impl : F64 → ℤ) (path : GoString) (receipts : Store) :
    Option (Store × Response) :=
  match pathID path with
  | none => none
  | some id =>
    match receipts id with
    | none => some (receipts, ⟨404, .text "Receipt not found"⟩)
    | some receipt => some (receipts, ⟨200, .PointsResponse (calculatePoints impl receipt)⟩)

/-- The handlers registered in `main` (main.go 125-126). -/
inductive Handler where
  | processReceipt
  | getPoints
  | notFound
deriving DecidableEq

/-- The pattern matching of `http.DefaultServeMux` on the patterns of main.go
125-126: the pattern `/receipts/process` matches that path only, the pattern
`/receipts/` every path that starts with it, and the longer pattern wins.
This is the step that picks one of the handlers of main.go. The mux answers
two kinds of request with a redirect of its own before this step, and they
reach no handler of main.go: the path `/receipts` (redirected to
`/receipts/`), and a path that is not in canonical form, with a repeated
slash or a `.` or `..` element (redirected to the cleaned path). -/
def route (path : GoString) : Handler :=
  if path = bytes "/receipts/process" then .processReceipt
  else if (bytes "/receipts/").isPrefixOf path then .getPoints
  else .notFound

/-! ## Definitions used to state the properties -/

/-- Whether `int(x)` is fixed by the language: `x` is finite and its
truncation fits in 64 bits. -/
def fits : F64 → Bool
  | .fin q => decide (-(2 : ℤ) ^ 63 ≤ truncQ q ∧ truncQ q < 2 ^ 63)
  | _ => false

/-- Every float-to-int conversion `calculatePoints` performs on the receipt
is fixed by the language. -/
def conversionsFit (r : Receipt) : Bool :=
  fits (parsedTotal r) && r.Items.all fun item => !qualifies item || fits (itemCeil item)

/-- The sum of the `itemPoints` of the qualifying items, without
wrap-around. -/
def descriptionExact (impl : F64 → ℤ) (items : List Item) : ℤ :=
  ((items.filter fun item => qualifies item).map (itemPoints impl)).sum

/-- The sum of the seven contributions, without wrap-around. -/
def exactPoints (impl : F64 → ℤ) (r : Receipt) : ℤ :=
  retailerPoints r + roundDollarPoints impl r + quarterPoints r + pairPoints r +
    descriptionExact impl r.Items + oddDayPoints r + timeBonus r

/-- The value of a finite float64, and 0 for the others. -/
def F64.val : F64 → ℚ
  | .fin q => q
  | _ => 0

/-- The price of an item as the specification reads it: parsed as a decimal
number and taken as 0 when it does not parse. -/
def priceOrZero (item : Item) : F64 :=
  match ParseFloat item.Price with
  | (f, none) => f
  | (_, some _) => .fin 0

/-- The points of one qualifying item in the words of the specification:
`ceil(price × 0.2)`, the product being the float64 product. -/
def specItemPoints (item : Item) : ℤ := ⌈(F64.mul (priceOrZero item) fifth).val⌉

/-- The description rule in the words of the specification: the sum of
`ceil(price × 0.2)` over the items whose trimmed description has a length
divisible by 3. -/
def descriptionSpec (items : List Item) : ℤ :=
  ((items.filter fun item => qualifies item).map specItemPoints).sum

/-- The character of a decimal digit. -/
def digitChar (n : ℕ) : Char := Char.ofNat (48 + n % 10)

/-- A date written as `YYYY-MM-DD`. -/
def isoDate (y m d : ℕ) : String :=
  String.mk [digitChar (y / 1000), digitChar (y / 100), digitChar (y / 10), digitChar y, '-',
    digitChar (m / 10), digitChar m, '-', digitChar (d / 10), digitChar d]

/-- A time of day written as `HH:MM`. -/
def clockString (h m : ℕ) : String :=
  String.mk [digitChar (h / 10), digitChar h, ':', digitChar (m / 10), digitChar m]

/-- The request path `/receipts/{id}/points`. -/
def pointsPath (id : GoString) : GoString := bytes "/receipts/" ++ id ++ bytes "/points"

/-- A valid calendar date: a year of four digits, a month, and a day of that
month. -/
def validDate (y m d : ℕ) : Prop :=
  y ≤ 9999 ∧ (1 ≤ m ∧ m ≤ 12) ∧ (1 ≤ d ∧ (d : ℤ) ≤ daysIn m y)

/-- An identifier as `uuid.New().String()` returns them. -/
def sampleID : GoString := bytes "7fb1377b-b223-49d9-a31a-5a02701dd310"

/-- An item with a blank description and the price `1e300`. -/
def blankHugeItem : Item := ⟨" \t", "1e300"⟩

/-- Scenario A of the specification. -/
def scenarioA : Receipt :=
  { Retailer := "Target", PurchaseDate := "2022-01-01", PurchaseTime := "13:01",
    Items := [⟨"Pepsi - 12-oz", "12.25"⟩, ⟨"Dasani", "12.25"⟩], Total := "35.35" }

/-- A receipt with one qualifying item of negative price. -/
def refundReceipt : Receipt :=
  { Retailer := "", PurchaseDate := "", PurchaseTime := "",
    Items := [⟨"abc", "-1000"⟩], Total := "" }

/-- A receipt with twelve qualifying items of price `4e18` each. -/
def bulkReceipt : Receipt :=
  { Retailer := "", PurchaseDate := "", PurchaseTime := "",
    Items := List.replicate 12 ⟨"abc", "4e18"⟩, Total := "" }

/-- A receipt with one qualifying item whose price is a literal beyond the
float64 range. -/
def overRangePriceReceipt : Receipt :=
  { Retailer := "", PurchaseDate := "", PurchaseTime := "",
    Items := [⟨"abc", "1e999"⟩], Total := "" }

/-- A receipt whose total is the round amount `1e20`. -/
def hugeTotalReceipt : Receipt :=
  { Retailer := "", PurchaseDate := "", PurchaseTime := "", Items := [], Total := "1e20" }

/-- A receipt that scores `2 ^ 63 - 1`, the largest `int`: three qualifying
items worth 4611686018427387904, 4611686018427379712 and 8105 points, 5 from
the pair rule, 75 from the empty total and 6 from the empty date. -/
def nearMaxReceipt : Receipt :=
  { Retailer := "", PurchaseDate := "", PurchaseTime := "",
    Items := [⟨"abc", "23058430092136939520"⟩, ⟨"abc", "23058430092136900000"⟩,
      ⟨"abc", "40525"⟩],
    Total := "" }

/-! ## Lemmas: rounding, wrap-around, the loop of rule 5 -/

theorem pow2_eq (e : ℤ) : pow2 e = (2 : ℚ) ^ e := by
  unfold pow2
  split_ifs with h
  · lift e to ℕ using h
    simp
  · push_neg at h
    obtain ⟨n, rfl⟩ : ∃ n : ℕ, e = -(n : ℤ) := ⟨(-e).toNat, by omega⟩
    simp

theorem pow2_pos (e : ℤ) : 0 < pow2 e := by
  rw [pow2_eq]; positivity

theorem pow2_mono {a b : ℤ} (h : a ≤ b) : pow2 a ≤ pow2 b := by
  simp only [pow2_eq]; exact zpow_le_zpow_right₀ (by norm_num) h
theorem log2Fuel_eq : ∀ fuel n, n ≤ fuel → log2Fuel fuel n = Nat.log2 n := by
  intro fuel
  induction fuel with
  | zero =>
    intro n hn
    obtain rfl : n = 0 := by omega
    simp [log2Fuel, Nat.log2_zero]
  | succ f ih =>
    intro n hn
    rw [log2Fuel, Nat.log2]
    by_cases h : 2 ≤ n
    · rw [if_pos h, if_pos h, ih (n / 2) (by omega)]
    · rw [if_neg h, if_neg h]

theorem natLog2_eq (n : ℕ) : natLog2 n = Nat.log2 n := log2Fuel_eq n n le_rfl

/-- Lower bracket of `ilog2`. -/
theorem pow2_ilog2_le {q : ℚ} (hq : 0 < q) : pow2 (ilog2 q) ≤ q := by
  unfold ilog2
  simp only [natLog2_eq]
  split_ifs with h
  · exact h
  · have hn : q.num.natAbs ≠ 0 := by
      have := Rat.num_pos.mpr hq
      omega
    have h1 : (2 : ℚ) ^ (Nat.log2 q.num.natAbs) ≤ (q.num.natAbs : ℚ) := by
      exact_mod_cast Nat.log2_self_le hn
    have h2 : (q.den : ℚ) < (2 : ℚ) ^ (Nat.log2 q.den + 1) := by
      exact_mod_cast (Nat.lt_log2_self (n := q.den))
    have hd : (0 : ℚ) < q.den := by exact_mod_cast q.den_pos
    have hq' : q = (q.num.natAbs : ℚ) / q.den := by
      have : ((q.num.natAbs : ℤ) : ℚ) = q.num := by
        rw [Int.natAbs_of_nonneg (le_of_lt (Rat.num_pos.mpr hq))]
      rw [← Int.cast_natCast, this]
      exact (Rat.num_div_den q).symm
    rw [pow2_eq]
    have e1 : ((Nat.log2 q.num.natAbs : ℤ) - (Nat.log2 q.den : ℤ) - 1) =
        (Nat.log2 q.num.natAbs : ℤ) - ((Nat.log2 q.den + 1 : ℕ) : ℤ) := by push_cast; ring
    rw [e1, zpow_sub₀ (by norm_num), zpow_natCast, zpow_natCast]
    conv_rhs => rw [hq']
    rw [div_le_div_iff₀ (by positivity) hd]
    calc (2 : ℚ) ^ Nat.log2 q.num.natAbs * q.den
        ≤ q.num.natAbs * q.den := by gcongr
      _ ≤ q.num.natAbs * 2 ^ (Nat.log2 q.den + 1) := by gcongr

theorem roundHalfEven_floor_le (t : ℚ) : ⌊t⌋ ≤ roundHalfEven t := by
  unfold roundHalfEven
  simp only
  split_ifs <;> omega

theorem roundHalfEven_le_floor_add_one (t : ℚ) : roundHalfEven t ≤ ⌊t⌋ + 1 := by
  unfold roundHalfEven
  simp only
  split_ifs <;> omega

theorem roundHalfEven_intCast (n : ℤ) : roundHalfEven (n : ℚ) = n := by
  unfold roundHalfEven
  simp

theorem roundHalfEven_nonneg {t : ℚ} (ht : 0 ≤ t) : 0 ≤ roundHalfEven t :=
  le_trans (Int.floor_nonneg.mpr ht) (roundHalfEven_floor_le t)

theorem roundMag_nonneg {q : ℚ} (hq : 0 ≤ q) : 0 ≤ roundMag q := by
  unfold roundMag
  have h1 : 0 ≤ q / pow2 (ulpExp q) := div_nonneg hq (pow2_pos _).le
  have h2 := roundHalfEven_nonneg h1
  have h3 : (0 : ℚ) ≤ (roundHalfEven (q / pow2 (ulpExp q)) : ℚ) := by exact_mod_cast h2
  exact mul_nonneg h3 (pow2_pos _).le

theorem pow2_ulpExp_le {q : ℚ} (hq : 0 < q) : pow2 (ulpExp q) ≤ q + 1 := by
  unfold ulpExp
  rcases le_total (ilog2 q - 52) (-1074) with h | h
  · rw [max_eq_right h]
    have : pow2 (-1074) ≤ pow2 0 := pow2_mono (by norm_num)
    have h0 : pow2 0 = 1 := by simp [pow2]
    linarith
  · rw [max_eq_left h]
    have : pow2 (ilog2 q - 52) ≤ pow2 (ilog2 q) := pow2_mono (by omega)
    have := pow2_ilog2_le hq
    linarith

/-- The rounded magnitude is within one unit in the last place. -/
theorem roundMag_le {q : ℚ} (hq : 0 < q) : roundMag q ≤ 2 * q + 1 := by
  unfold roundMag
  set p := pow2 (ulpExp q) with hp
  have hpp : 0 < p := pow2_pos _
  have h1 : (roundHalfEven (q / p) : ℚ) ≤ q / p + 1 := by
    have := roundHalfEven_le_floor_add_one (q / p)
    have h2 : ((roundHalfEven (q / p) : ℤ) : ℚ) ≤ ((⌊q / p⌋ + 1 : ℤ) : ℚ) := by exact_mod_cast this
    have h3 : ((⌊q / p⌋ : ℤ) : ℚ) ≤ q / p := Int.floor_le _
    push_cast at h2
    linarith
  calc (roundHalfEven (q / p) : ℚ) * p ≤ (q / p + 1) * p := by gcongr
    _ = q + p := by field_simp
    _ ≤ 2 * q + 1 := by have := pow2_ulpExp_le hq; linarith

/-- Rounding an integer gives an integer-valued double or an infinity. -/
theorem roundMag_natCast (n : ℕ) : ∃ m : ℕ, roundMag (n : ℚ) = m := by
  unfold roundMag
  rcases le_or_lt 0 (ulpExp (n : ℚ)) with h | h
  · obtain ⟨k, hk⟩ : ∃ k : ℕ, ulpExp (n : ℚ) = k := ⟨_, (Int.toNat_of_nonneg h).symm⟩
    rw [hk]
    have hp : pow2 (k : ℤ) = ((2 ^ k : ℕ) : ℚ) := by simp [pow2]
    rw [hp]
    have hnn : 0 ≤ roundHalfEven ((n : ℚ) / ((2 ^ k : ℕ) : ℚ)) :=
      roundHalfEven_nonneg (by positivity)
    obtain ⟨r, hr⟩ := Int.eq_ofNat_of_zero_le hnn
    exact ⟨r * 2 ^ k, by rw [hr]; push_cast; ring⟩
  · obtain ⟨k, hk⟩ : ∃ k : ℕ, ulpExp (n : ℚ) = -(k : ℤ) := ⟨(-ulpExp (n : ℚ)).toNat, by omega⟩
    rw [hk]
    have hp : pow2 (-(k : ℤ)) = 1 / ((2 ^ k : ℕ) : ℚ) := by
      rw [pow2_eq]; simp
    rw [hp]
    have e : (n : ℚ) / (1 / ((2 ^ k : ℕ) : ℚ)) = ((n * 2 ^ k : ℕ) : ℤ) := by
      push_cast; field_simp
    rw [e, roundHalfEven_intCast]
    exact ⟨n, by push_cast; field_simp⟩

theorem round_intCast (n : ℤ) :
    (∃ m : ℤ, F64.round (n : ℚ) = .fin m) ∨ ∃ s, F64.round (n : ℚ) = .inf s := by
  unfold F64.round
  by_cases h0 : (n : ℚ) = 0
  · exact Or.inl ⟨0, by simp [h0]⟩
  · simp only [if_neg h0]
    by_cases hov : pow2 1024 ≤ roundMag |(n : ℚ)|
    · exact Or.inr ⟨_, if_pos hov⟩
    · simp only [if_neg hov]
      obtain ⟨m, hm⟩ := roundMag_natCast n.natAbs
      have e : |(n : ℚ)| = (n.natAbs : ℚ) := by
        rw [Nat.cast_natAbs, Int.cast_abs]
      rw [e, hm]
      by_cases hneg : (n : ℚ) < 0
      · exact Or.inl ⟨-(m : ℤ), by simp [hneg]⟩
      · exact Or.inl ⟨(m : ℤ), by simp [hneg]⟩

theorem wrapInt_range (n : ℤ) : -(2 : ℤ) ^ 63 ≤ wrapInt n ∧ wrapInt n < 2 ^ 63 := by
  unfold wrapInt
  constructor <;> omega

theorem wrapInt_of_range {n : ℤ} (h1 : -(2 : ℤ) ^ 63 ≤ n) (h2 : n < 2 ^ 63) : wrapInt n = n := by
  unfold wrapInt
  omega

theorem toInt_range (impl : F64 → ℤ) (x : F64) :
    -(2 : ℤ) ^ 63 ≤ F64.toInt impl x ∧ F64.toInt impl x < 2 ^ 63 := by
  unfold F64.toInt
  split
  · split_ifs with h
    · exact h
    · exact wrapInt_range _
  · exact wrapInt_range _

theorem wrapInt_add_left (a b : ℤ) : wrapInt (wrapInt a + b) = wrapInt (a + b) := by
  unfold wrapInt
  omega

theorem wrapInt_add_right (a b : ℤ) : wrapInt (a + wrapInt b) = wrapInt (a + b) := by
  unfold wrapInt
  omega

theorem toInt_of_fits (impl : F64 → ℤ) {x : F64} (h : fits x = true) :
    F64.toInt impl x = truncQ x.val := by
  cases x with
  | fin q =>
    simp only [fits, decide_eq_true_eq] at h
    simp only [F64.toInt, F64.val, if_pos h]
  | inf s => simp [fits] at h
  | nan => simp [fits] at h

theorem descriptionLoop_eq (impl : F64 → ℤ) (items : List Item) (a : ℤ) :
    descriptionLoop impl items (wrapInt a) = wrapInt (a + descriptionExact impl items) := by
  induction items generalizing a with
  | nil => simp [descriptionLoop, descriptionExact]
  | cons item rest ih =>
    unfold descriptionLoop
    by_cases hq : qualifies item = true
    · rw [if_pos hq, wrapInt_add_left, ih]
      congr 1
      simp [descriptionExact, List.filter_cons, hq]
      ring
    · rw [if_neg hq, ih]
      congr 1
      simp [descriptionExact, List.filter_cons, hq]

theorem descriptionPoints_eq (impl : F64 → ℤ) (r : Receipt) :
    descriptionPoints impl r = wrapInt (descriptionExact impl r.Items) := by
  have h := descriptionLoop_eq impl r.Items 0
  have h0 : wrapInt 0 = 0 := by decide
  rw [h0, zero_add] at h
  exact h

theorem calculatePoints_eq (impl : F64 → ℤ) (r : Receipt) :
    calculatePoints impl r = wrapInt (exactPoints impl r) := by
  unfold calculatePoints exactPoints
  simp only [descriptionPoints_eq, wrapInt_add_left, wrapInt_add_right, zero_add]

theorem calculatePoints_sum (impl : F64 → ℤ) (r : Receipt) :
    calculatePoints impl r = wrapInt (retailerPoints r + roundDollarPoints impl r +
      quarterPoints r + pairPoints r + descriptionPoints impl r + oddDayPoints r +
      timeBonus r) := by
  unfold calculatePoints
  simp only [wrapInt_add_left, zero_add]

theorem descriptionExact_congr (impl impl2 : F64 → ℤ) (items : List Item)
    (h : ∀ item ∈ items, qualifies item = true → fits (itemCeil item) = true) :
    descriptionExact impl items = descriptionExact impl2 items := by
  unfold descriptionExact
  congr 1
  apply List.map_congr_left
  intro item hm
  rw [List.mem_filter] at hm
  unfold itemPoints
  rw [toInt_of_fits impl (h item hm.1 hm.2), toInt_of_fits impl2 (h item hm.1 hm.2)]

theorem calculatePoints_congr (impl impl2 : F64 → ℤ) (r : Receipt)
    (h : conversionsFit r = true) : calculatePoints impl r = calculatePoints impl2 r := by
  unfold conversionsFit at h
  rw [Bool.and_eq_true, List.all_eq_true] at h
  rw [calculatePoints_eq, calculatePoints_eq]
  unfold exactPoints roundDollarPoints
  simp only
  rw [toInt_of_fits impl h.1, toInt_of_fits impl2 h.1]
  rw [descriptionExact_congr impl impl2 r.Items]
  intro item hm hq
  have := h.2 item hm
  simpa [hq] using this


theorem pow2_natCast (k : ℕ) : pow2 (k : ℤ) = (2 : ℚ) ^ k := by
  rw [pow2_eq, zpow_natCast]

/-- Rounding a value of moderate size gives a finite double of the same
sign, at most one unit in the last place away. -/
theorem round_fin_of_small {x : ℚ} (hx : |x| ≤ 2 ^ 1000) :
    ∃ v, F64.round x = .fin v ∧ |v| ≤ 2 * |x| + 1 ∧ (0 ≤ x → 0 ≤ v) ∧ (x ≤ 0 → v ≤ 0) := by
  unfold F64.round
  by_cases h0 : x = 0
  · subst h0
    exact ⟨0, if_pos rfl, by norm_num, fun _ => le_rfl, fun _ => le_rfl⟩
  · simp only [if_neg h0]
    have hpos : 0 < |x| := abs_pos.mpr h0
    have hm := roundMag_le hpos
    have hm0 := roundMag_nonneg hpos.le
    have hov : ¬ pow2 1024 ≤ roundMag |x| := by
      have : pow2 1024 = (2 : ℚ) ^ 1024 := pow2_natCast 1024
      rw [this]
      push_neg
      have h3 : (2 : ℚ) * 2 ^ 1000 + 1 < 2 ^ 1024 := by norm_num
      linarith
    simp only [if_neg hov]
    by_cases hneg : x < 0
    · refine ⟨-roundMag |x|, by simp [hneg], ?_, ?_, ?_⟩
      · rw [abs_neg, abs_of_nonneg hm0]; exact hm
      · intro h; linarith
      · intro _; linarith
    · refine ⟨roundMag |x|, by simp [hneg], ?_, ?_, ?_⟩
      · rw [abs_of_nonneg hm0]; exact hm
      · intro _; exact hm0
      · intro h
        exact absurd (lt_of_le_of_ne h h0) hneg

theorem truncQ_intCast (n : ℤ) : truncQ (n : ℚ) = n := by
  unfold truncQ
  split_ifs <;> simp

theorem fifth_eq : fifth = .fin (3602879701896397 / 2 ^ 54) := by decide!

/-- The points of an item whose price is finite and of moderate size: the
conversion to `int` fits, and the result has the sign of the price. -/
theorem itemCeil_of_fin {item : Item} {q : ℚ} (hp : (ParseFloat item.Price).1 = .fin q)
    (hq : |q| ≤ 2 ^ 62) :
    ∃ n : ℤ, itemCeil item = .fin (n : ℚ) ∧ fits (itemCeil item) = true ∧
      (F64.mul (.fin q) fifth).val ≤ n ∧ n = ⌈(F64.mul (.fin q) fifth).val⌉ ∧
      (0 ≤ q → 0 ≤ n) ∧ |n| < 2 ^ 62 := by
  unfold itemCeil
  simp only [hp, fifth_eq, F64.mul]
  have hc : |q * (3602879701896397 / 2 ^ 54)| ≤ 2 ^ 60 := by
    rw [abs_mul]
    have : |(3602879701896397 / 2 ^ 54 : ℚ)| ≤ 1 / 4 := by
      rw [abs_of_nonneg (by norm_num)]; norm_num
    calc |q| * |(3602879701896397 / 2 ^ 54 : ℚ)| ≤ 2 ^ 62 * (1 / 4) := by
          gcongr
      _ = 2 ^ 60 := by norm_num
  obtain ⟨v, hv, hvb, hv0, -⟩ := round_fin_of_small (le_trans hc (by norm_num))
  rw [hv]
  have hvb2 : |v| ≤ 2 ^ 61 + 1 := by linarith
  have hceil : |(⌈v⌉ : ℚ)| ≤ 2 ^ 61 + 2 := by
    have h1 := Int.le_ceil v
    have h2 := Int.ceil_lt_add_one v
    have h3 := abs_le.mp hvb2
    rw [abs_le]
    constructor <;> linarith [h3.1, h3.2]
  have hceilZ : |⌈v⌉| ≤ 2 ^ 61 + 2 := by
    have : ((|⌈v⌉| : ℤ) : ℚ) ≤ ((2 ^ 61 + 2 : ℤ) : ℚ) := by
      rw [Int.cast_abs]
      norm_num at hceil ⊢
      exact hceil
    exact_mod_cast this
  refine ⟨⌈v⌉, rfl, ?_, ?_, ?_, ?_, ?_⟩
  · simp only [Ceil, fits, truncQ_intCast, decide_eq_true_eq]
    have := abs_le.mp hceilZ
    constructor <;> omega
  · simp only [F64.val]; exact Int.le_ceil v
  · simp only [F64.val]
  · intro h
    have : 0 ≤ v := hv0 (mul_nonneg h (by norm_num))
    exact Int.ceil_nonneg this
  · have := abs_le.mp hceilZ
    rw [abs_lt]
    constructor <;> omega

theorem itemPoints_of_fin (impl : F64 → ℤ) {item : Item} {q : ℚ}
    (hp : (ParseFloat item.Price).1 = .fin q) (hq : |q| ≤ 2 ^ 62) :
    itemPoints impl item = ⌈(F64.mul (.fin q) fifth).val⌉ ∧
      (0 ≤ q → 0 ≤ itemPoints impl item) := by
  obtain ⟨n, hn, hfit, -, hceil, hnn, -⟩ := itemCeil_of_fin hp hq
  unfold itemPoints
  rw [toInt_of_fits impl hfit, hn]
  simp only [F64.val, truncQ_intCast]
  exact ⟨hceil, hnn⟩

theorem ParseFloat_cases (s : String) :
    (ParseFloat s).2 = none ∨ ParseFloat s = (.fin 0, some .ErrSyntax) ∨
      ∃ neg, ParseFloat s = (.inf neg, some .ErrRange) := by
  unfold ParseFloat atof64
  split
  · rename_i f rest err heq
    split at heq
    · simp only [Prod.mk.injEq] at heq
      obtain ⟨rfl, rfl, rfl⟩ := heq
      split_ifs <;> simp
    · split at heq
      · simp only [Prod.mk.injEq] at heq
        obtain ⟨rfl, rfl, rfl⟩ := heq
        split_ifs <;> simp
      · split at heq
        · simp only [Prod.mk.injEq] at heq
          obtain ⟨rfl, rfl, rfl⟩ := heq
          split_ifs <;> simp
        · simp only [Prod.mk.injEq] at heq
          obtain ⟨rfl, rfl, rfl⟩ := heq
          split_ifs <;> simp


theorem retailerPoints_nonneg (r : Receipt) : 0 ≤ retailerPoints r := by
  unfold retailerPoints; positivity

theorem roundDollarPoints_nonneg (impl : F64 → ℤ) (r : Receipt) :
    0 ≤ roundDollarPoints impl r := by
  unfold roundDollarPoints; simp only; split_ifs <;> norm_num

theorem quarterPoints_nonneg (r : Receipt) : 0 ≤ quarterPoints r := by
  unfold quarterPoints; split_ifs <;> norm_num

theorem pairPoints_nonneg (r : Receipt) : 0 ≤ pairPoints r := by
  unfold pairPoints
  have : (0 : ℤ) ≤ (r.Items.length : ℤ) / 2 := Int.ediv_nonneg (by positivity) (by norm_num)
  positivity

theorem oddDayPoints_nonneg (r : Receipt) : 0 ≤ oddDayPoints r := by
  unfold oddDayPoints; simp only; split_ifs <;> norm_num

theorem timeBonus_nonneg (r : Receipt) : 0 ≤ timeBonus r := by
  unfold timeBonus; simp only; split_ifs <;> norm_num

theorem priceOrZero_of_fin {item : Item} {q : ℚ} (hp : (ParseFloat item.Price).1 = .fin q) :
    priceOrZero item = .fin q := by
  unfold priceOrZero
  rcases ParseFloat_cases item.Price with h | h | ⟨neg, h⟩
  · split
    · rename_i f heq
      rw [heq] at hp
      exact hp
    · rename_i f e heq
      rw [heq] at h
      simp at h
  · rw [h] at hp ⊢
    simp only at hp ⊢
    exact hp
  · rw [h] at hp
    simp at hp

/-- A finite `math.Ceil(price * 0.2)` comes from a finite price and a finite
product. -/
theorem itemCeil_fin_inv {item : Item} {x : ℚ} (h : itemCeil item = .fin x) :
    ∃ q v, (ParseFloat item.Price).1 = .fin q ∧ F64.mul (.fin q) fifth = .fin v ∧
      x = ((⌈v⌉ : ℤ) : ℚ) := by
  unfold itemCeil at h
  simp only at h
  cases hp : (ParseFloat item.Price).1 with
  | fin q =>
    rw [hp] at h
    cases hm : F64.mul (.fin q) fifth with
    | fin v =>
      rw [hm] at h
      simp only [Ceil, F64.fin.injEq] at h
      exact ⟨q, v, rfl, hm, h.symm⟩
    | inf s => rw [hm] at h; simp [Ceil] at h
    | nan => rw [hm] at h; simp [Ceil] at h
  | inf s =>
    rw [hp, fifth_eq] at h
    simp only [F64.mul] at h
    split_ifs at h <;> simp [Ceil] at h
  | nan =>
    rw [hp, fifth_eq] at h
    simp [F64.mul, Ceil] at h

/-- The points of an item whose `math.Ceil(price * 0.2)` is within the range
of `int`: the conversion is exact, and the value is `ceil(price × 0.2)`. -/
theorem itemPoints_of_ceil (impl : F64 → ℤ) {item : Item} {n : ℤ}
    (h : itemCeil item = .fin n) (hlo : -(2 : ℤ) ^ 63 ≤ n) (hhi : n < 2 ^ 63) :
    itemPoints impl item = n ∧ specItemPoints item = n ∧
      ∃ q, (ParseFloat item.Price).1 = .fin q ∧ n = ⌈(F64.mul (.fin q) fifth).val⌉ := by
  have hfit : fits (itemCeil item) = true := by
    rw [h]
    simp only [fits, truncQ_intCast, decide_eq_true_eq]
    exact ⟨hlo, hhi⟩
  obtain ⟨q, v, hp, hm, hx⟩ := itemCeil_fin_inv h
  have hn : n = ⌈v⌉ := by exact_mod_cast hx
  refine ⟨?_, ?_, q, hp, ?_⟩
  · unfold itemPoints
    rw [toInt_of_fits impl hfit, h]
    simp only [F64.val, truncQ_intCast]
  · unfold specItemPoints
    rw [priceOrZero_of_fin hp, hm, hn]
    rfl
  · rw [hm, hn]
    rfl

theorem descriptionExact_nonneg (impl : F64 → ℤ) (items : List Item)
    (h : ∀ item ∈ items, qualifies item = true →
      ∃ n : ℤ, itemCeil item = .fin n ∧ 0 ≤ n ∧ n < 2 ^ 63) :
    0 ≤ descriptionExact impl items := by
  unfold descriptionExact
  apply List.sum_nonneg
  intro x hx
  rw [List.mem_map] at hx
  obtain ⟨item, hm, rfl⟩ := hx
  rw [List.mem_filter] at hm
  obtain ⟨n, hn, h0, h1⟩ := h item hm.1 hm.2
  rw [(itemPoints_of_ceil impl hn (by omega) h1).1]
  exact h0

theorem descriptionExact_eq_spec (impl : F64 → ℤ) (items : List Item)
    (h : ∀ item ∈ items, qualifies item = true →
      ∃ n : ℤ, itemCeil item = .fin n ∧ -(2 : ℤ) ^ 63 ≤ n ∧ n < 2 ^ 63) :
    descriptionExact impl items = descriptionSpec items := by
  unfold descriptionExact descriptionSpec
  congr 1
  apply List.map_congr_left
  intro item hm
  rw [List.mem_filter] at hm
  obtain ⟨n, hn, h0, h1⟩ := h item hm.1 hm.2
  obtain ⟨e1, e2, -⟩ := itemPoints_of_ceil impl hn h0 h1
  rw [e1, e2]

theorem descriptionExact_append (impl : F64 → ℤ) (xs ys : List Item) :
    descriptionExact impl (xs ++ ys) = descriptionExact impl xs + descriptionExact impl ys := by
  unfold descriptionExact
  rw [List.filter_append, List.map_append, List.sum_append]

theorem descriptionExact_cons (impl : F64 → ℤ) (item : Item) (rest : List Item) :
    descriptionExact impl (item :: rest) =
      (if qualifies item then itemPoints impl item else 0) + descriptionExact impl rest := by
  unfold descriptionExact
  by_cases hq : qualifies item = true
  · simp [List.filter_cons, hq]
  · simp [List.filter_cons, hq]

/-- A price of moderate size meets the condition on `math.Ceil(price * 0.2)`. -/
theorem itemCeil_of_price {item : Item} {q : ℚ} (hp : (ParseFloat item.Price).1 = .fin q)
    (hq : |q| ≤ 2 ^ 62) :
    ∃ n : ℤ, itemCeil item = .fin n ∧ -(2 : ℤ) ^ 63 ≤ n ∧ n < 2 ^ 63 ∧ (0 ≤ q → 0 ≤ n) := by
  obtain ⟨n, hn, -, -, -, h0, hb⟩ := itemCeil_of_fin hp hq
  have := abs_lt.mp hb
  exact ⟨n, hn, by omega, by omega, h0⟩

theorem descriptionExact_filter (impl : F64 → ℤ) (items : List Item) :
    descriptionExact impl (items.filter fun item => qualifies item) =
      descriptionExact impl items := by
  unfold descriptionExact
  rw [List.filter_filter]
  simp

theorem itemPoints_of_syntax (impl : F64 → ℤ) {item : Item}
    (h : (ParseFloat item.Price).2 = some .ErrSyntax) : itemPoints impl item = 0 := by
  have hp : (ParseFloat item.Price).1 = .fin 0 := by
    rcases ParseFloat_cases item.Price with h1 | h1 | ⟨neg, h1⟩
    · rw [h1] at h; simp at h
    · rw [h1]
    · rw [h1] at h; simp at h
  have := (itemPoints_of_fin impl hp (by norm_num)).1
  rw [this]
  simp [F64.mul, F64.round, F64.val, fifth_eq]

/-! ## Lemmas: rules 2 and 3 -/

/-- `float64(n)` of an `int` is finite, integer-valued and at most `2 ^ 64 + 1` in size. -/
theorem ofInt_of_range {n : ℤ} (h1 : -(2 : ℤ) ^ 63 ≤ n) (h2 : n < 2 ^ 63) :
    ∃ m : ℤ, F64.ofInt n = .fin (m : ℚ) ∧ |m| ≤ 2 ^ 64 + 1 := by
  unfold F64.ofInt
  have hn : |(n : ℚ)| ≤ 2 ^ 63 := by
    rw [abs_le]
    constructor
    · have : ((-(2 : ℤ) ^ 63 : ℤ) : ℚ) ≤ (n : ℚ) := by exact_mod_cast h1
      push_cast at this; linarith
    · have : (n : ℚ) < ((2 ^ 63 : ℤ) : ℚ) := by exact_mod_cast h2
      push_cast at this; linarith
  obtain ⟨v, hv, hvb, -, -⟩ := round_fin_of_small (le_trans hn (by norm_num))
  rcases round_intCast n with ⟨m, hm⟩ | ⟨s, hs⟩
  · refine ⟨m, hm, ?_⟩
    rw [hm] at hv
    injection hv with hv
    have : ((|m| : ℤ) : ℚ) ≤ ((2 ^ 64 + 1 : ℤ) : ℚ) := by
      rw [Int.cast_abs, hv]
      push_cast
      linarith
    exact_mod_cast this
  · rw [hs] at hv
    cases hv

theorem truncQ_self_iff (q : ℚ) : (truncQ q : ℚ) = q ↔ (⌊q⌋ : ℚ) = q := by
  unfold truncQ
  split_ifs with h
  · rfl
  · constructor
    · intro h1
      rw [← h1]; simp
    · intro h1
      rw [← h1]; simp

/-- Rule 2 never fires on a total with a fractional part. -/
theorem roundDollarPoints_of_fract (impl : F64 → ℤ) (r : Receipt) {q : ℚ}
    (hq : parsedTotal r = .fin q) (hfrac : (⌊q⌋ : ℚ) ≠ q) : roundDollarPoints impl r = 0 := by
  unfold roundDollarPoints
  simp only [hq]
  obtain ⟨h1, h2⟩ := toInt_range impl (.fin q)
  obtain ⟨m, hm, -⟩ := ofInt_of_range h1 h2
  rw [hm]
  simp only [F64.eq]
  rw [if_neg]
  simp only [decide_eq_true_eq]
  intro h
  apply hfrac
  rw [h]; simp

theorem quarterPoints_of_fin (r : Receipt) {q : ℚ} (hq : parsedTotal r = .fin q) :
    (quarterPoints r = 25 ∧ ∃ k : ℤ, q = k / 4) ∨
      (quarterPoints r = 0 ∧ ¬ ∃ k : ℤ, q = k / 4) := by
  unfold quarterPoints quarter
  have hb : ¬ ((1 / 4 : ℚ) = 0) := by norm_num
  simp only [hq, Mod, if_neg hb, F64.eq, decide_eq_true_eq]
  by_cases h : ∃ k : ℤ, q = k / 4
  · left
    refine ⟨?_, h⟩
    rw [if_pos]
    obtain ⟨k, rfl⟩ := h
    have : (k : ℚ) / 4 / (1 / 4) = (k : ℚ) := by field_simp
    rw [this, truncQ_intCast]
    ring
  · right
    refine ⟨?_, h⟩
    rw [if_neg]
    intro h2
    apply h
    refine ⟨truncQ (q / (1 / 4)), ?_⟩
    linarith

theorem quarter_iff_fract {q : ℚ} (hfrac : (⌊q⌋ : ℚ) ≠ q) :
    (∃ k : ℤ, q = k / 4) ↔ (Int.fract q = 1 / 4 ∨ Int.fract q = 1 / 2 ∨ Int.fract q = 3 / 4) := by
  have hf : Int.fract q = q - ⌊q⌋ := rfl
  constructor
  · rintro ⟨k, hk⟩
    have h0 := Int.fract_nonneg q
    have h1 := Int.fract_lt_one q
    have hne : Int.fract q ≠ 0 := by
      intro h; apply hfrac; rw [hf] at h; linarith
    set j : ℤ := k - 4 * ⌊q⌋ with hj
    have hjq : (j : ℚ) = 4 * Int.fract q := by
      rw [hj, hf, hk]; push_cast; ring
    have hj0 : (0 : ℚ) < j := by
      rw [hjq]; have := lt_of_le_of_ne h0 (Ne.symm hne); linarith
    have hj4 : (j : ℚ) < 4 := by rw [hjq]; linarith
    have hj0' : 0 < j := by exact_mod_cast hj0
    have hj4' : j < 4 := by exact_mod_cast hj4
    have : j = 1 ∨ j = 2 ∨ j = 3 := by omega
    rcases this with h | h | h <;> rw [h] at hjq <;> push_cast at hjq
    · left; linarith
    · right; left; linarith
    · right; right; linarith
  · intro h
    rcases h with h | h | h
    · exact ⟨4 * ⌊q⌋ + 1, by rw [hf] at h; push_cast; linarith⟩
    · exact ⟨4 * ⌊q⌋ + 2, by rw [hf] at h; push_cast; linarith⟩
    · exact ⟨4 * ⌊q⌋ + 3, by rw [hf] at h; push_cast; linarith⟩

/-! ## Lemmas: `time.Parse` on the two layouts -/

theorem digitChar_props (n : ℕ) :
    isDigit (digitChar n) = true ∧ digitVal (digitChar n) = ((n % 10 : ℕ) : ℤ) := by
  unfold digitChar
  have h : n % 10 < 10 := Nat.mod_lt _ (by norm_num)
  generalize n % 10 = k at h
  interval_cases k <;> exact ⟨by decide, by decide⟩

theorem isDigit_digitChar (n : ℕ) : isDigit (digitChar n) = true := (digitChar_props n).1

theorem digitVal_digitChar (n : ℕ) : digitVal (digitChar n) = ((n % 10 : ℕ) : ℤ) :=
  (digitChar_props n).2

/-- A digit character is the character of its value. -/
theorem digit_inv {c : Char} (h : isDigit c = true) :
    ∃ k : ℕ, k < 10 ∧ digitVal c = k ∧ c = digitChar k := by
  unfold isDigit at h
  simp only [decide_eq_true_eq] at h
  refine ⟨c.toNat - 48, by omega, rfl, ?_⟩
  unfold digitChar
  have : 48 + (c.toNat - 48) % 10 = c.toNat := by omega
  rw [this, Char.ofNat_toNat]

theorem Parse_clockString (h m : ℕ) (hh : h < 24) (hm : m < 60) :
    Parse layoutClock (clockString h m) = (⟨0, 1, 1, h, m⟩, false) := by
  have eh : ((h / 10 % 10 : ℕ) : ℤ) * 10 + ((h % 10 : ℕ) : ℤ) = h := by omega
  have em : ((m / 10 % 10 : ℕ) : ℤ) * 10 + ((m % 10 : ℕ) : ℤ) = m := by omega
  have h1 : ¬ ((h : ℤ) < 0 ∨ 24 ≤ (h : ℤ)) := by omega
  have h2 : ¬ ((m : ℤ) < 0 ∨ 60 ≤ (m : ℤ)) := by omega
  simp only [Parse, clockString, layoutClock, parseLoop, getnum, isDigit_digitChar,
    digitVal_digitChar, eh, em, h1, h2, if_true, if_false, Bool.true_eq_false]
  have e1 : ((-1 : ℤ) < 0) := by norm_num
  have e2 : ¬ ((1 : ℤ) < 1 ∨ daysIn 1 0 < 1) := by decide
  simp only [e1, if_true, if_neg e2]

theorem getnum_fixed_inv {s rest : List Char} {n : ℤ} (h : getnum s true = some (n, rest)) :
    ∃ a b : ℕ, a < 10 ∧ b < 10 ∧ s = digitChar a :: digitChar b :: rest ∧ n = 10 * a + b := by
  rcases s with _ | ⟨c1, _ | ⟨c2, t⟩⟩
  · simp [getnum] at h
  · by_cases d1 : isDigit c1 = true <;> simp [getnum, d1] at h
  · by_cases d1 : isDigit c1 = true
    · by_cases d2 : isDigit c2 = true
      · simp only [getnum, d1, d2, if_true, Bool.true_eq_false, if_false, Option.some.injEq,
          Prod.mk.injEq] at h
        obtain ⟨a, ha, hva, rfl⟩ := digit_inv d1
        obtain ⟨b, hb, hvb, rfl⟩ := digit_inv d2
        refine ⟨a, b, ha, hb, by rw [h.2], ?_⟩
        rw [← h.1, hva, hvb]; ring
      · simp [getnum, d1, d2] at h
    · simp [getnum, d1] at h

theorem getnum_free_inv {s rest : List Char} {n : ℤ} (h : getnum s false = some (n, rest)) :
    (∃ a b : ℕ, a < 10 ∧ b < 10 ∧ s = digitChar a :: digitChar b :: rest ∧ n = 10 * a + b) ∨
      n < 10 := by
  rcases s with _ | ⟨c1, _ | ⟨c2, t⟩⟩
  · simp [getnum] at h
  · by_cases d1 : isDigit c1 = true
    · simp only [getnum, d1, Bool.true_eq_false, Bool.false_eq_true, if_false, Option.some.injEq,
        Prod.mk.injEq] at h
      obtain ⟨a, ha, hva, rfl⟩ := digit_inv d1
      right
      rw [← h.1, hva]; omega
    · simp [getnum, d1] at h
  · by_cases d1 : isDigit c1 = true
    · by_cases d2 : isDigit c2 = true
      · simp only [getnum, d1, d2, if_true, Bool.true_eq_false, if_false, Option.some.injEq,
          Prod.mk.injEq] at h
        obtain ⟨a, ha, hva, rfl⟩ := digit_inv d1
        obtain ⟨b, hb, hvb, rfl⟩ := digit_inv d2
        left
        refine ⟨a, b, ha, hb, by rw [h.2], ?_⟩
        rw [← h.1, hva, hvb]; ring
      · simp only [getnum, d1, d2, Bool.true_eq_false, Bool.false_eq_true, if_false, Option.some.injEq,
          Prod.mk.injEq] at h
        obtain ⟨a, ha, hva, rfl⟩ := digit_inv d1
        right
        rw [← h.1, hva]; omega
    · simp [getnum, d1] at h

/-- What a successful parse of `15:04` with an hour of 10 or more looks like. -/
theorem parseClock_inv {s : List Char} {f : Fields}
    (h : parseLoop layoutClock s ⟨0, -1, -1, 0, 0⟩ = some f) (hh : 10 ≤ f.hour) :
    ∃ a b c d : ℕ, a < 10 ∧ b < 10 ∧ c < 10 ∧ d < 10 ∧
      s = [digitChar a, digitChar b, ':', digitChar c, digitChar d] ∧
      f.hour = 10 * a + b ∧ f.min = 10 * c + d ∧ f.hour < 24 ∧ f.min < 60 ∧
      f.month = -1 ∧ f.day = -1 ∧ f.year = 0 := by
  unfold layoutClock at h
  rw [parseLoop] at h
  cases hg : getnum s false with
  | none => rw [hg] at h; simp at h
  | some p =>
    obtain ⟨hour, rest⟩ := p
    rw [hg] at h
    dsimp only at h
    by_cases hr : hour < 0 ∨ 24 ≤ hour
    · rw [if_pos hr] at h; simp at h
    · rw [if_neg hr] at h
      rcases rest with _ | ⟨v, rest2⟩
      · simp [parseLoop] at h
      · rw [parseLoop] at h
        by_cases hv : v = ':'
        · rw [if_pos hv, parseLoop] at h
          cases hg2 : getnum rest2 true with
          | none => rw [hg2] at h; simp at h
          | some p2 =>
            obtain ⟨min, rest3⟩ := p2
            rw [hg2] at h
            dsimp only at h
            by_cases hmi : min < 0 ∨ 60 ≤ min
            · rw [if_pos hmi] at h; simp at h
            · rw [if_neg hmi, parseLoop] at h
              by_cases he : rest3 = []
              · rw [if_pos he] at h
                simp only [Option.some.injEq] at h
                subst h
                simp only at hh
                obtain ⟨c, d, hc, hd, hs2, hmin⟩ := getnum_fixed_inv hg2
                rcases getnum_free_inv hg with ⟨a, b, ha, hb, hs, hhour⟩ | hlt
                · refine ⟨a, b, c, d, ha, hb, hc, hd, ?_, hhour, hmin, ?_, ?_, rfl, rfl, rfl⟩
                  · rw [hs, hv, hs2, he]
                  · simp only; omega
                  · simp only; omega
                · omega
              · rw [if_neg he] at h; simp at h
        · rw [if_neg hv] at h; simp at h

theorem digitChar_congr {a b : ℕ} (h : a % 10 = b % 10) : digitChar a = digitChar b := by
  unfold digitChar
  rw [h]

theorem timeBonus_eq_ten_iff (r : Receipt) :
    timeBonus r = 10 ↔
      (14 ≤ (Parse layoutClock r.PurchaseTime).1.Hour ∧
        (Parse layoutClock r.PurchaseTime).1.Hour < 16) := by
  unfold timeBonus
  simp only [ge_iff_le]
  split_ifs with h
  · exact ⟨fun _ => h, fun _ => rfl⟩
  · exact ⟨fun h2 => absurd h2 (by norm_num), fun h2 => absurd h2 h⟩

/-- A parse either fails with the zero time or keeps the hour it read. -/
theorem Parse_cases (layout : List Chunk) (s : String) :
    Parse layout s = (zeroTime, true) ∨
      ∃ f, parseLoop layout s.data ⟨0, -1, -1, 0, 0⟩ = some f ∧
        (Parse layout s).1.Hour = f.hour ∧ (Parse layout s).2 = false := by
  unfold Parse
  cases hp : parseLoop layout s.data ⟨0, -1, -1, 0, 0⟩ with
  | none => left; rfl
  | some f =>
    dsimp only
    by_cases hday : ((if f.day < 0 then 1 else f.day) < 1 ∨
        daysIn (if f.month < 0 then 1 else f.month) f.year < (if f.day < 0 then 1 else f.day))
    · left; rw [if_pos hday]
    · right; rw [if_neg hday]; exact ⟨f, rfl, rfl, rfl⟩

theorem Parse_isoDate (y m d : ℕ) (hy : y ≤ 9999) (hm : 1 ≤ m ∧ m ≤ 12)
    (hd : 1 ≤ d ∧ (d : ℤ) ≤ daysIn m y) :
    Parse layoutDate (isoDate y m d) = (⟨y, m, d, 0, 0⟩, false) := by
  have hd31 : (d : ℤ) ≤ 31 := by
    have : daysIn m y ≤ 31 := by
      unfold daysIn
      split_ifs <;> norm_num
    linarith [hd.2]
  have ey : ((y / 1000 % 10 : ℕ) : ℤ) * 1000 + ((y / 100 % 10 : ℕ) : ℤ) * 100 +
      ((y / 10 % 10 : ℕ) : ℤ) * 10 + ((y % 10 : ℕ) : ℤ) = y := by omega
  have em : ((m / 10 % 10 : ℕ) : ℤ) * 10 + ((m % 10 : ℕ) : ℤ) = m := by omega
  have ed : ((d / 10 % 10 : ℕ) : ℤ) * 10 + ((d % 10 : ℕ) : ℤ) = d := by omega
  have hm1 : ¬ ((m : ℤ) ≤ 0 ∨ 12 < (m : ℤ)) := by omega
  have hm2 : ¬ ((m : ℤ) < 0) := by omega
  have hd2 : ¬ ((d : ℤ) < 0) := by omega
  have hd3 : ¬ ((d : ℤ) < 1 ∨ daysIn m y < d) := by
    have := hd.2
    omega
  simp only [Parse, isoDate, layoutDate, parseLoop, getnum, isDigit_digitChar,
    digitVal_digitChar, ey, em, ed, and_self, if_true, if_pos, hm1, hm2, hd2, hd3, if_false,
    Bool.true_eq_false]

/-- The class `[a-zA-Z0-9]` is the ASCII letters and digits. -/
theorem alnumClass_eq (c : Char) : alnumClass c = c.isAlphanum := by
  unfold alnumClass Char.isAlphanum Char.isAlpha Char.isUpper Char.isLower Char.isDigit
  rw [Bool.eq_iff_iff]
  simp only [decide_eq_true_eq, Bool.or_eq_true, Bool.and_eq_true, ge_iff_le, UInt32.le_def,
    BitVec.le_def]
  have e : c.val.toBitVec.toNat = c.toNat := rfl
  have h97 : (UInt32.toBitVec 97).toNat = 97 := rfl
  have h122 : (UInt32.toBitVec 122).toNat = 122 := rfl
  have h65 : (UInt32.toBitVec 65).toNat = 65 := rfl
  have h90 : (UInt32.toBitVec 90).toNat = 90 := rfl
  have h48 : (UInt32.toBitVec 48).toNat = 48 := rfl
  have h57 : (UInt32.toBitVec 57).toNat = 57 := rfl
  rw [e, h97, h122, h65, h90, h48, h57]
  tauto

/-- One match per character of the class. -/
theorem FindAllString_length (cls : Char → Bool) (s : List Char) :
    (FindAllString cls s).length = s.countP cls := by
  induction s with
  | nil => rfl
  | cons c cs ih =>
    unfold FindAllString
    by_cases h : cls c = true
    · rw [if_pos h, List.length_cons, ih, List.countP_cons_of_pos _ _ h]
    · rw [if_neg h, ih, List.countP_cons_of_neg _ _ h]

/-! ## Lemmas: doubles round to themselves -/

theorem pow2_strictMono {a b : ℤ} (h : a < b) : pow2 a < pow2 b := by
  simp only [pow2_eq]; exact zpow_lt_zpow_right₀ (by norm_num) h

/-- Upper bracket of `ilog2`. -/
theorem lt_pow2_ilog2_succ {q : ℚ} (hq : 0 < q) : q < pow2 (ilog2 q + 1) := by
  unfold ilog2
  simp only [natLog2_eq]
  split_ifs with h
  · have hn : q.num.natAbs ≠ 0 := by
      have := Rat.num_pos.mpr hq
      omega
    have h1 : (q.num.natAbs : ℚ) < (2 : ℚ) ^ (Nat.log2 q.num.natAbs + 1) := by
      exact_mod_cast (Nat.lt_log2_self (n := q.num.natAbs))
    have h2 : (2 : ℚ) ^ (Nat.log2 q.den) ≤ (q.den : ℚ) := by
      exact_mod_cast Nat.log2_self_le q.den_nz
    have hd : (0 : ℚ) < q.den := by exact_mod_cast q.den_pos
    have hq' : q = (q.num.natAbs : ℚ) / q.den := by
      have : ((q.num.natAbs : ℤ) : ℚ) = q.num := by
        rw [Int.natAbs_of_nonneg (le_of_lt (Rat.num_pos.mpr hq))]
      rw [← Int.cast_natCast, this]
      exact (Rat.num_div_den q).symm
    rw [pow2_eq]
    have e1 : ((Nat.log2 q.num.natAbs : ℤ) - (Nat.log2 q.den : ℤ) + 1) =
        ((Nat.log2 q.num.natAbs + 1 : ℕ) : ℤ) - ((Nat.log2 q.den : ℕ) : ℤ) := by
      push_cast; ring
    rw [e1, zpow_sub₀ (by norm_num), zpow_natCast, zpow_natCast]
    conv_lhs => rw [hq']
    rw [div_lt_div_iff₀ hd (by positivity)]
    calc (q.num.natAbs : ℚ) * 2 ^ Nat.log2 q.den
        ≤ q.num.natAbs * q.den := by gcongr
      _ < 2 ^ (Nat.log2 q.num.natAbs + 1) * q.den := by gcongr
  · push_neg at h
    have : (natLog2 q.num.natAbs : ℤ) - (natLog2 q.den : ℤ) - 1 + 1 =
        (natLog2 q.num.natAbs : ℤ) - (natLog2 q.den : ℤ) := by ring
    simp only [natLog2_eq] at this
    rw [this]
    exact h

theorem ilog2_lt_of_lt {q : ℚ} {k : ℤ} (hq : 0 < q) (h : q < pow2 k) : ilog2 q < k := by
  by_contra hc
  push_neg at hc
  have := pow2_mono hc
  have := pow2_ilog2_le hq
  linarith

/-- A point of the binary64 grid rounds to itself. -/
theorem roundMag_grid {n : ℕ} {e : ℤ} (hn : 0 < n) (hn2 : n < 2 ^ 53) (he : -1074 ≤ e) :
    roundMag ((n : ℚ) * pow2 e) = (n : ℚ) * pow2 e := by
  have hpos : 0 < (n : ℚ) * pow2 e := mul_pos (by exact_mod_cast hn) (pow2_pos e)
  have hlt : (n : ℚ) * pow2 e < pow2 (e + 53) := by
    rw [pow2_eq, pow2_eq, zpow_add₀ (by norm_num), mul_comm]
    have : (n : ℚ) < (2 : ℚ) ^ (53 : ℤ) := by
      rw [zpow_ofNat]; exact_mod_cast hn2
    gcongr
  have hle : ulpExp ((n : ℚ) * pow2 e) ≤ e := by
    unfold ulpExp
    have := ilog2_lt_of_lt hpos hlt
    exact max_le (by omega) he
  unfold roundMag
  generalize ulpExp ((n : ℚ) * pow2 e) = u at hle
  obtain ⟨k, hk⟩ : ∃ k : ℕ, e - u = k := ⟨_, (Int.toNat_of_nonneg (by omega)).symm⟩
  have hpe : pow2 e = pow2 u * 2 ^ k := by
    rw [pow2_eq, pow2_eq, ← zpow_natCast, ← zpow_add₀ (by norm_num), ← hk]
    congr 1
    ring
  have hu := pow2_pos u
  have hdiv : (n : ℚ) * pow2 e / pow2 u = ((n * 2 ^ k : ℕ) : ℤ) := by
    rw [hpe]
    push_cast
    field_simp
    ring
  rw [hdiv, roundHalfEven_intCast, hpe]
  push_cast
  ring

theorem roundMag_zero : roundMag 0 = 0 := by
  unfold roundMag roundHalfEven
  simp

/-- Rounding lands on the grid: the scaled value is below `2 ^ 53`. -/
theorem roundMag_idem {x : ℚ} (hx : 0 < x) : roundMag (roundMag x) = roundMag x := by
  have hp := pow2_pos (ulpExp x)
  have ht : x / pow2 (ulpExp x) < 2 ^ 53 := by
    rw [div_lt_iff₀ hp]
    have h1 := lt_pow2_ilog2_succ hx
    have h2 : pow2 (ilog2 x + 1) ≤ pow2 (ulpExp x + 53) := by
      apply pow2_mono
      unfold ulpExp
      have := le_max_left (ilog2 x - 52) (-1074)
      omega
    have h3 : pow2 (ulpExp x + 53) = 2 ^ 53 * pow2 (ulpExp x) := by
      rw [pow2_eq, pow2_eq, zpow_add₀ (by norm_num), mul_comm]
      norm_num
    linarith
  have hn0 : 0 ≤ roundHalfEven (x / pow2 (ulpExp x)) :=
    roundHalfEven_nonneg (div_nonneg hx.le hp.le)
  have hn1 : roundHalfEven (x / pow2 (ulpExp x)) ≤ 2 ^ 53 := by
    have h1 := roundHalfEven_le_floor_add_one (x / pow2 (ulpExp x))
    have h2 : ⌊x / pow2 (ulpExp x)⌋ < 2 ^ 53 := by
      rw [Int.floor_lt]
      push_cast
      exact ht
    omega
  obtain ⟨n, hn⟩ := Int.eq_ofNat_of_zero_le hn0
  have he : -1074 ≤ ulpExp x := le_max_right _ _
  have hval : roundMag x = (n : ℚ) * pow2 (ulpExp x) := by
    unfold roundMag
    rw [hn]
    push_cast
    rfl
  rw [hval]
  rcases Nat.eq_zero_or_pos n with h0 | hpos
  · rw [h0]; simp [roundMag_zero]
  · have hn2 : n ≤ 2 ^ 53 := by
      have : (n : ℤ) ≤ 2 ^ 53 := by rw [← hn]; exact hn1
      exact_mod_cast this
    rcases Nat.lt_or_ge n (2 ^ 53) with hlt | hge
    · exact roundMag_grid hpos hlt he
    · have hn3 : n = 2 ^ 53 := le_antisymm hn2 hge
      have e1 : (n : ℚ) * pow2 (ulpExp x) = ((2 ^ 52 : ℕ) : ℚ) * pow2 (ulpExp x + 1) := by
        rw [hn3, pow2_eq, pow2_eq, zpow_add₀ (by norm_num)]
        push_cast
        ring
      rw [e1]
      exact roundMag_grid (by norm_num) (by norm_num) (by omega)

theorem round_idem {x q : ℚ} (h : F64.round x = .fin q) : F64.round q = .fin q := by
  unfold F64.round at h
  by_cases h0 : x = 0
  · rw [if_pos h0] at h
    injection h with h
    rw [← h]
    exact if_pos rfl
  · rw [if_neg h0] at h
    dsimp only at h
    have hpos : 0 < |x| := abs_pos.mpr h0
    by_cases hov : pow2 1024 ≤ roundMag |x|
    · rw [if_pos hov] at h; cases h
    · rw [if_neg hov] at h
      injection h with h
      have hm0 := roundMag_nonneg hpos.le
      have hidem := roundMag_idem hpos
      by_cases hq0 : q = 0
      · rw [hq0]; exact if_pos rfl
      · unfold F64.round
        rw [if_neg hq0]
        dsimp only
        by_cases hneg : x < 0
        · rw [if_pos hneg] at h
          have hqabs : |q| = roundMag |x| := by
            rw [← h, abs_neg, abs_of_nonneg hm0]
          have hqneg : q < 0 := by
            have : roundMag |x| ≠ 0 := by
              intro hz; apply hq0; rw [← h, hz]; simp
            have := lt_of_le_of_ne hm0 (Ne.symm this)
            linarith
          rw [hqabs, hidem, if_neg hov, if_pos hqneg, h]
        · rw [if_neg hneg] at h
          have hqabs : |q| = roundMag |x| := by
            rw [← h, abs_of_nonneg hm0]
          have hqneg : ¬ q < 0 := by rw [← h]; linarith
          rw [hqabs, hidem, if_neg hov, if_neg hqneg, h]

theorem specialInf_not_fin {neg : Bool} {s rest : List Char} {v : F64}
    (h : specialInf neg s = some (v, rest)) : ∀ q, v ≠ .fin q := by
  unfold specialInf at h
  dsimp only at h
  split_ifs at h <;>
  · simp only [Option.some.injEq, Prod.mk.injEq] at h
    intro q hq
    rw [← h.1] at hq
    cases hq

theorem special_not_fin {s rest : List Char} {v : F64} (h : special s = some (v, rest)) :
    ∀ q, v ≠ .fin q := by
  unfold special at h
  split at h
  · cases h
  · split_ifs at h
    · exact specialInf_not_fin h
    · exact specialInf_not_fin h
    · exact specialInf_not_fin h
    · simp only [Option.some.injEq, Prod.mk.injEq] at h
      intro q hq
      rw [← h.1] at hq
      cases hq

/-- Every finite value `ParseFloat` returns is a double: rounding leaves it
as it is. -/
theorem ParseFloat_representable {s : String} {q : ℚ} (h : (ParseFloat s).1 = .fin q) :
    F64.round q = .fin q := by
  have hz : F64.round 0 = .fin 0 := if_pos rfl
  unfold ParseFloat atof64 at h
  split at h
  rename_i f rest err heq
  split at heq
  · rename_i v rest2 hsp
    simp only [Prod.mk.injEq] at heq
    obtain ⟨rfl, rfl, rfl⟩ := heq
    split_ifs at h
    · injection h with h; rw [← h]; exact hz
    · exact absurd h (special_not_fin hsp q)
  · split at heq
    · simp only [Prod.mk.injEq] at heq
      obtain ⟨rfl, rfl, rfl⟩ := heq
      split_ifs at h <;> · injection h with h; rw [← h]; exact hz
    · rename_i l hrf
      split at heq
      · simp only [Prod.mk.injEq] at heq
        obtain ⟨rfl, rfl, rfl⟩ := heq
        split_ifs at h
        injection h with h; rw [← h]; exact hz
      · rename_i f2 hne
        simp only [Prod.mk.injEq] at heq
        obtain ⟨rfl, rfl, rfl⟩ := heq
        split_ifs at h
        · injection h with h; rw [← h]; exact hz
        · exact round_idem h

/-- Rules 2 and 3 on a whole total that fits in an `int`. -/
theorem whole_total_in_range (impl : F64 → ℤ) (r : Receipt) (q : ℚ)
    (hq : parsedTotal r = .fin q) (hwhole : Int.fract q = 0) (hr : |q| < 2 ^ 63) :
    roundDollarPoints impl r = 50 ∧ quarterPoints r = 25 := by
  have hfl : ((⌊q⌋ : ℤ) : ℚ) = q := by
    have := Int.floor_add_fract q
    rw [hwhole, add_zero] at this
    exact this
  have hrep : F64.round q = .fin q := ParseFloat_representable hq
  constructor
  · unfold roundDollarPoints
    simp only [hq]
    have hfit : fits (.fin q) = true := by
      simp only [fits, decide_eq_true_eq]
      rw [← hfl, truncQ_intCast]
      rw [← hfl] at hr
      have h2 := abs_lt.mp hr
      constructor
      · have : ((-(2 : ℤ) ^ 63 : ℤ) : ℚ) < ((⌊q⌋ : ℤ) : ℚ) := by push_cast; linarith [h2.1]
        exact le_of_lt (by exact_mod_cast this)
      · have : ((⌊q⌋ : ℤ) : ℚ) < (((2 : ℤ) ^ 63 : ℤ) : ℚ) := by push_cast; linarith [h2.2]
        exact_mod_cast this
    rw [toInt_of_fits impl hfit]
    simp only [F64.val, F64.ofInt]
    have : ((truncQ q : ℤ) : ℚ) = q := by
      conv_lhs => rw [← hfl]
      rw [truncQ_intCast, hfl]
    have h2 : F64.round ((truncQ q : ℤ) : ℚ) = .fin q := by rw [this]; exact hrep
    have h3 : (F64.fin q).eq (F64.round ((truncQ q : ℤ) : ℚ)) = true := by
      rw [h2]; simp [F64.eq]
    rw [if_pos h3]
  · rcases quarterPoints_of_fin r hq with ⟨h, -⟩ | ⟨-, hne⟩
    · exact h
    · exact absurd ⟨4 * ⌊q⌋, by push_cast; rw [hfl]; ring⟩ hne

/-! ## Lemmas: the store and the handlers -/

/-- The pattern `/receipts/` is ten bytes long. -/
theorem bytes_receipts_length : (bytes "/receipts/").length = 10 := by decide

theorem bytes_points_length : (bytes "/points").length = 7 := by decide

/-- The slice of main.go 58 cuts ten bytes at the front and seven at the end. -/
theorem pathID_append (id tail : GoString) (h : tail.length = 7) :
    pathID (bytes "/receipts/" ++ id ++ tail) = some id := by
  unfold pathID slice
  have hlen : (bytes "/receipts/" ++ id ++ tail).length = id.length + 17 := by
    simp only [List.length_append, bytes_receipts_length, h]
    omega
  rw [bytes_receipts_length, bytes_points_length, hlen]
  have hc : (0 : ℤ) ≤ ((10 : ℕ) : ℤ) ∧
      ((10 : ℕ) : ℤ) ≤ ((id.length + 17 : ℕ) : ℤ) - ((7 : ℕ) : ℤ) ∧
      ((id.length + 17 : ℕ) : ℤ) - ((7 : ℕ) : ℤ) ≤ ((id.length + 17 : ℕ) : ℤ) := by
    refine ⟨?_, ?_, ?_⟩ <;> omega
  rw [if_pos hc]
  have e1 : (((10 : ℕ) : ℤ)).toNat = (bytes "/receipts/").length := by
    rw [bytes_receipts_length]; rfl
  have e2 : (((id.length + 17 : ℕ) : ℤ) - ((7 : ℕ) : ℤ) - ((10 : ℕ) : ℤ)).toNat = id.length := by
    omega
  rw [e2, e1, List.append_assoc, List.drop_left, List.take_left]

theorem pathID_eq_none_iff (path : GoString) : pathID path = none ↔ path.length < 17 := by
  unfold pathID slice
  rw [bytes_receipts_length, bytes_points_length]
  constructor
  · intro h
    by_contra hc
    have hc2 : (0 : ℤ) ≤ ((10 : ℕ) : ℤ) ∧
        ((10 : ℕ) : ℤ) ≤ (path.length : ℤ) - ((7 : ℕ) : ℤ) ∧
        (path.length : ℤ) - ((7 : ℕ) : ℤ) ≤ (path.length : ℤ) := by
      refine ⟨?_, ?_, ?_⟩ <;> omega
    rw [if_pos hc2] at h
    cases h
  · intro h
    have hc2 : ¬ ((0 : ℤ) ≤ ((10 : ℕ) : ℤ) ∧
        ((10 : ℕ) : ℤ) ≤ (path.length : ℤ) - ((7 : ℕ) : ℤ) ∧
        (path.length : ℤ) - ((7 : ℕ) : ℤ) ≤ (path.length : ℤ)) := by
      rintro ⟨-, h2, -⟩
      omega
    rw [if_neg hc2]

theorem pathID_pointsPath (id : GoString) : pathID (pointsPath id) = some id :=
  pathID_append id (bytes "/points") bytes_points_length

theorem getPoints_found (impl : F64 → ℤ) {path id : GoString} {receipts : Store} {r : Receipt}
    (hid : pathID path = some id) (hr : receipts id = some r) :
    getPoints impl path receipts =
      some (receipts, ⟨200, .PointsResponse (calculatePoints impl r)⟩) := by
  unfold getPoints
  rw [hid]
  dsimp only
  rw [hr]

theorem getPoints_missing (impl : F64 → ℤ) {path id : GoString} {receipts : Store}
    (hid : pathID path = some id) (hr : receipts id = none) :
    getPoints impl path receipts = some (receipts, ⟨404, .text "Receipt not found"⟩) := by
  unfold getPoints
  rw [hid]
  dsimp only
  rw [hr]

/-- A path with a non-empty tail after `/receipts/` that is at least 18
bytes long goes to `getPoints`. -/
theorem route_long (id tail : GoString) (h : 17 < (bytes "/receipts/" ++ id ++ tail).length) :
    route (bytes "/receipts/" ++ id ++ tail) = .getPoints := by
  unfold route
  have hne : bytes "/receipts/" ++ id ++ tail ≠ bytes "/receipts/process" := by
    intro he
    rw [he] at h
    revert h
    decide
  rw [if_neg hne, if_pos]
  rw [List.append_assoc]
  simp

theorem route_pointsPath (id : GoString) : route (pointsPath id) = .getPoints := by
  unfold pointsPath
  rcases id with _ | ⟨c, t⟩
  · unfold route
    have hne : bytes "/receipts/" ++ [] ++ bytes "/points" ≠ bytes "/receipts/process" := by
      decide
    rw [if_neg hne, if_pos]
    decide
  · apply route_long
    simp only [List.length_append, bytes_receipts_length, bytes_points_length, List.length_cons]
    omega

/-- A path of 17 bytes or more never makes `getPoints` panic: it answers 200
or 404 and leaves the map as it is. -/
theorem getPoints_of_long_path (impl : F64 → ℤ) (path : GoString) (receipts : Store)
    (h : 17 ≤ path.length) :
    ∃ resp, getPoints impl path receipts = some (receipts, resp) ∧
      (resp.status = 200 ∨ resp.status = 404) := by
  cases hid : pathID path with
  | none =>
    rw [pathID_eq_none_iff] at hid
    omega
  | some id =>
    cases hr : receipts id with
    | none => exact ⟨_, getPoints_missing impl hid hr, Or.inr rfl⟩
    | some r => exact ⟨_, getPoints_found impl hid hr, Or.inl rfl⟩

theorem getPoints_eq_none_iff (impl : F64 → ℤ) (path : GoString) (receipts : Store) :
    getPoints impl path receipts = none ↔ path.length < 17 := by
  constructor
  · intro h
    by_contra hc
    obtain ⟨resp, hr, -⟩ := getPoints_of_long_path impl path receipts (by omega)
    rw [hr] at h
    cases h
  · intro h
    unfold getPoints
    rw [(pathID_eq_none_iff path).mpr h]

/-- Later inserts under other keys keep an entry. -/
theorem foldl_set_keeps (id : GoString) (r : Receipt) (later : List (GoString × Receipt))
    (hne : ∀ p ∈ later, p.1 ≠ id) (receipts : Store) (h : receipts id = some r) :
    (later.foldl (fun s p => Store.set s p.1 p.2) receipts) id = some r := by
  induction later generalizing receipts with
  | nil => exact h
  | cons p rest ih =>
    rw [List.foldl_cons]
    apply ih (fun q hq => hne q (List.mem_cons_of_mem _ hq))
    unfold Store.set
    rw [if_neg (Ne.symm (hne p (List.mem_cons_self _ _))), h]

/-! ## Lemmas: dates that do not parse, blank descriptions -/

/-- What a successful walk of the layout `2006-01-02` has read. -/
theorem parseDate_inv {s : List Char} {f : Fields}
    (h : parseLoop layoutDate s ⟨0, -1, -1, 0, 0⟩ = some f) :
    ∃ a b c d e g i j : ℕ, a < 10 ∧ b < 10 ∧ c < 10 ∧ d < 10 ∧ e < 10 ∧ g < 10 ∧ i < 10 ∧
      j < 10 ∧
      s = [digitChar a, digitChar b, digitChar c, digitChar d, '-', digitChar e, digitChar g,
        '-', digitChar i, digitChar j] ∧
      f.year = 1000 * a + 100 * b + 10 * c + d ∧ f.month = 10 * e + g ∧
      f.day = 10 * i + j ∧ 1 ≤ f.month ∧ f.month ≤ 12 := by
  unfold layoutDate at h
  rcases s with _ | ⟨c1, _ | ⟨c2, _ | ⟨c3, _ | ⟨c4, rest⟩⟩⟩⟩
  · simp [parseLoop] at h
  · simp [parseLoop] at h
  · simp [parseLoop] at h
  · simp [parseLoop] at h
  · rw [parseLoop] at h
    by_cases hd : isDigit c1 = true ∧ isDigit c2 = true ∧ isDigit c3 = true ∧ isDigit c4 = true
    · rw [if_pos hd] at h
      obtain ⟨a, ha, hva, rfl⟩ := digit_inv hd.1
      obtain ⟨b, hb, hvb, rfl⟩ := digit_inv hd.2.1
      obtain ⟨c, hc, hvc, rfl⟩ := digit_inv hd.2.2.1
      obtain ⟨d, hd4, hvd, rfl⟩ := digit_inv hd.2.2.2
      rcases rest with _ | ⟨v, rest2⟩
      · simp [parseLoop] at h
      · rw [parseLoop] at h
        by_cases hv : v = '-'
        · rw [if_pos hv, parseLoop] at h
          cases hg : getnum rest2 true with
          | none => rw [hg] at h; simp at h
          | some p =>
            obtain ⟨month, rest3⟩ := p
            rw [hg] at h
            dsimp only at h
            by_cases hmr : month ≤ 0 ∨ 12 < month
            · rw [if_pos hmr] at h; simp at h
            · rw [if_neg hmr] at h
              rcases rest3 with _ | ⟨v2, rest4⟩
              · simp [parseLoop] at h
              · rw [parseLoop] at h
                by_cases hv2 : v2 = '-'
                · rw [if_pos hv2, parseLoop] at h
                  cases hg2 : getnum rest4 true with
                  | none => rw [hg2] at h; simp at h
                  | some p2 =>
                    obtain ⟨day, rest5⟩ := p2
                    rw [hg2] at h
                    dsimp only at h
                    rw [parseLoop] at h
                    by_cases he : rest5 = []
                    · rw [if_pos he] at h
                      simp only [Option.some.injEq] at h
                      subst h
                      obtain ⟨e, g, he1, hg1, hs2, hmonth⟩ := getnum_fixed_inv hg
                      obtain ⟨i, j, hi, hj, hs4, hday⟩ := getnum_fixed_inv hg2
                      refine ⟨a, b, c, d, e, g, i, j, ha, hb, hc, hd4, he1, hg1, hi, hj, ?_,
                        ?_, hmonth, hday, ?_, ?_⟩
                      · rw [hv, hs2, hv2, hs4, he]
                      · simp only [hva, hvb, hvc, hvd]; ring
                      · simp only; omega
                      · simp only; omega
                    · rw [if_neg he] at h; simp at h
                · rw [if_neg hv2] at h; simp at h
        · rw [if_neg hv] at h; simp at h
    · rw [if_neg hd] at h; simp at h

/-- The strings `time.Parse` accepts with the layout `2006-01-02` are the
valid dates written `YYYY-MM-DD`. -/
theorem Parse_date_ok_iff (s : String) :
    (Parse layoutDate s).2 = false ↔ ∃ y m d : ℕ, validDate y m d ∧ s = isoDate y m d := by
  constructor
  · intro hok
    unfold Parse at hok
    cases hp : parseLoop layoutDate s.data ⟨0, -1, -1, 0, 0⟩ with
    | none => rw [hp] at hok; simp at hok
    | some f =>
      rw [hp] at hok
      dsimp only at hok
      obtain ⟨a, b, c, d, e, g, i, j, ha, hb, hc, hd, he, hg, hi, hj, hs, hy, hm, hday, hm1,
        hm12⟩ := parseDate_inv hp
      have hmn : ¬ f.month < 0 := by omega
      have hdn : ¬ f.day < 0 := by omega
      rw [if_neg hmn, if_neg hdn] at hok
      by_cases hv : f.day < 1 ∨ daysIn f.month f.year < f.day
      · rw [if_pos hv] at hok; simp at hok
      · push_neg at hv
        refine ⟨1000 * a + 100 * b + 10 * c + d, 10 * e + g, 10 * i + j,
          ⟨by omega, ⟨by omega, by omega⟩, ⟨by omega, ?_⟩⟩, ?_⟩
        · have := hv.2
          rw [hm, hy, hday] at this
          push_cast
          exact this
        · apply String.ext
          rw [hs]
          unfold isoDate
          simp only
          rw [digitChar_congr (show (1000 * a + 100 * b + 10 * c + d) / 1000 % 10 = a % 10 by omega),
            digitChar_congr (show (1000 * a + 100 * b + 10 * c + d) / 100 % 10 = b % 10 by omega),
            digitChar_congr (show (1000 * a + 100 * b + 10 * c + d) / 10 % 10 = c % 10 by omega),
            digitChar_congr (show (1000 * a + 100 * b + 10 * c + d) % 10 = d % 10 by omega),
            digitChar_congr (show (10 * e + g) / 10 % 10 = e % 10 by omega),
            digitChar_congr (show (10 * e + g) % 10 = g % 10 by omega),
            digitChar_congr (show (10 * i + j) / 10 % 10 = i % 10 by omega),
            digitChar_congr (show (10 * i + j) % 10 = j % 10 by omega)]
  · rintro ⟨y, m, d, ⟨hy, hm, hd⟩, rfl⟩
    rw [Parse_isoDate y m d hy hm hd]

theorem Parse_error_zero (layout : List Chunk) (s : String)
    (h : (Parse layout s).2 = true) : Parse layout s = (zeroTime, true) := by
  rcases Parse_cases layout s with hz | ⟨f, -, -, hok⟩
  · exact hz
  · rw [hok] at h
    cases h

theorem not_valid_of_error {s : String} (h : (Parse layoutDate s).2 = true) :
    ¬ ∃ y m d : ℕ, validDate y m d ∧ s = isoDate y m d := by
  intro hex
  rw [(Parse_date_ok_iff s).mpr hex] at h
  cases h

theorem TrimSpace_of_blank {s : List Char} (h : ∀ c ∈ s, isSpace c = true) : TrimSpace s = [] := by
  unfold TrimSpace
  have : s.dropWhile isSpace = [] := by
    rw [List.dropWhile_eq_nil_iff]
    exact h
  rw [this]
  rfl

theorem qualifies_of_blank {item : Item}
    (h : ∀ c ∈ item.ShortDescription.data, isSpace c = true) : qualifies item = true := by
  unfold qualifies
  rw [TrimSpace_of_blank h]
  decide

/-- Scenario B of the specification: the total "9.00" earns 50 and 25. -/
theorem nine_dollars_points (impl : F64 → ℤ) (r : Receipt) (h : r.Total = "9.00") :
    roundDollarPoints impl r = 50 ∧ quarterPoints r = 25 :=
  whole_total_in_range impl r 9 (by unfold parsedTotal; rw [h]; decide!) (by decide!)
    (by rw [abs_of_nonneg] <;> norm_num)

/-! ## Lemmas: the score and its seven contributions -/

/-- Replacing the retailer changes the score by the change of rule 1. -/
theorem calculatePoints_setRetailer (impl : F64 → ℤ) (r : Receipt) (s : String) :
    calculatePoints impl { r with Retailer := s } =
      wrapInt (calculatePoints impl r +
        (retailerPoints { r with Retailer := s } - retailerPoints r)) := by
  rw [calculatePoints_sum, calculatePoints_sum, wrapInt_add_left]
  congr 1
  show retailerPoints { r with Retailer := s } + roundDollarPoints impl r + quarterPoints r +
    pairPoints r + descriptionPoints impl r + oddDayPoints r + timeBonus r = _
  ring

/-- Replacing the total changes the score by the change of rules 2 and 3. -/
theorem calculatePoints_setTotal (impl : F64 → ℤ) (r : Receipt) (s : String) :
    calculatePoints impl { r with Total := s } =
      wrapInt (calculatePoints impl r +
        (roundDollarPoints impl { r with Total := s } + quarterPoints { r with Total := s } -
          (roundDollarPoints impl r + quarterPoints r))) := by
  rw [calculatePoints_sum, calculatePoints_sum, wrapInt_add_left]
  congr 1
  show retailerPoints r + roundDollarPoints impl { r with Total := s } +
    quarterPoints { r with Total := s } + pairPoints r + descriptionPoints impl r +
    oddDayPoints r + timeBonus r = _
  ring

/-- Replacing the date changes the score by the change of rule 6. -/
theorem calculatePoints_setDate (impl : F64 → ℤ) (r : Receipt) (s : String) :
    calculatePoints impl { r with PurchaseDate := s } =
      wrapInt (calculatePoints impl r +
        (oddDayPoints { r with PurchaseDate := s } - oddDayPoints r)) := by
  rw [calculatePoints_sum, calculatePoints_sum, wrapInt_add_left]
  congr 1
  show retailerPoints r + roundDollarPoints impl r + quarterPoints r + pairPoints r +
    descriptionPoints impl r + oddDayPoints { r with PurchaseDate := s } + timeBonus r = _
  ring

/-- Replacing the time changes the score by the change of rule 7. -/
theorem calculatePoints_setTime (impl : F64 → ℤ) (r : Receipt) (s : String) :
    calculatePoints impl { r with PurchaseTime := s } =
      wrapInt (calculatePoints impl r +
        (timeBonus { r with PurchaseTime := s } - timeBonus r)) := by
  rw [calculatePoints_sum, calculatePoints_sum, wrapInt_add_left]
  congr 1
  show retailerPoints r + roundDollarPoints impl r + quarterPoints r + pairPoints r +
    descriptionPoints impl r + oddDayPoints r + timeBonus { r with PurchaseTime := s } = _
  ring

/-- Replacing the items changes the score by the change of rules 4 and 5. -/
theorem calculatePoints_setItems (impl : F64 → ℤ) (r : Receipt) (items : List Item) :
    calculatePoints impl { r with Items := items } =
      wrapInt (calculatePoints impl r +
        (pairPoints { r with Items := items } - pairPoints r +
          (descriptionExact impl items - descriptionExact impl r.Items))) := by
  rw [calculatePoints_eq, calculatePoints_eq, wrapInt_add_left]
  congr 1
  show retailerPoints r + roundDollarPoints impl r + quarterPoints r +
    pairPoints { r with Items := items } + descriptionExact impl items +
    oddDayPoints r + timeBonus r = _
  unfold exactPoints
  ring

theorem wrapInt_wrapInt (a : ℤ) : wrapInt (wrapInt a) = wrapInt a := by
  unfold wrapInt
  omega

theorem calculatePoints_wrap (impl : F64 → ℤ) (r : Receipt) :
    wrapInt (calculatePoints impl r) = calculatePoints impl r := by
  rw [calculatePoints_eq, wrapInt_wrapInt]

/-- Rules 2 and 3 on a total with a non-zero fractional part. -/
theorem fractional_total_rules (impl : F64 → ℤ) (r : Receipt) (q : ℚ)
    (hq : parsedTotal r = .fin q) (hfrac : Int.fract q ≠ 0) :
    roundDollarPoints impl r = 0 ∧
      (quarterPoints r = 25 ↔ ∃ k : ℤ, q = k * (1 / 4)) ∧
      quarterPoints r =
        if Int.fract q = 1 / 4 ∨ Int.fract q = 1 / 2 ∨ Int.fract q = 3 / 4 then 25 else 0 := by
  have hfrac2 : (⌊q⌋ : ℚ) ≠ q := by
    intro h; apply hfrac; unfold Int.fract; linarith
  have h2 := roundDollarPoints_of_fract impl r hq hfrac2
  have hiff := quarter_iff_fract hfrac2
  have hk : (∃ k : ℤ, q = k * (1 / 4)) ↔ ∃ k : ℤ, q = k / 4 := by
    constructor <;> rintro ⟨k, hk⟩ <;> exact ⟨k, by rw [hk]; ring⟩
  rcases quarterPoints_of_fin r hq with ⟨h3, hex⟩ | ⟨h3, hex⟩
  · refine ⟨h2, ?_, ?_⟩
    · rw [h3, hk]; exact ⟨fun _ => hex, fun _ => rfl⟩
    · rw [h3, if_pos (hiff.mp hex)]
  · refine ⟨h2, ?_, ?_⟩
    · rw [h3, hk]; exact ⟨fun h => absurd h (by norm_num), fun h => absurd h hex⟩
    · rw [h3, if_neg (fun h => hex (hiff.mpr h))]

theorem parsedTotal_mk (a b c : String) (items : List Item) (t : String) :
    parsedTotal ⟨a, b, c, items, t⟩ = (ParseFloat t).1 := rfl

theorem plainTotal_parse : (ParseFloat "35.35").1 = .fin (4975070213360845 / 2 ^ 47) := by
  decide!

/-- The total "35.35" earns nothing from rules 2 and 3. -/
theorem plain_total_rules (impl : F64 → ℤ) (r : Receipt) :
    roundDollarPoints impl { r with Total := "35.35" } = 0 ∧
      quarterPoints { r with Total := "35.35" } = 0 := by
  have hq : parsedTotal { r with Total := "35.35" } = .fin (4975070213360845 / 2 ^ 47) := by
    rw [parsedTotal_mk]
    exact plainTotal_parse
  have hf : Int.fract (4975070213360845 / 2 ^ 47 : ℚ) ≠ 0 := by decide!
  have hn : ¬ (Int.fract (4975070213360845 / 2 ^ 47 : ℚ) = 1 / 4 ∨
      Int.fract (4975070213360845 / 2 ^ 47 : ℚ) = 1 / 2 ∨
      Int.fract (4975070213360845 / 2 ^ 47 : ℚ) = 3 / 4) := by decide!
  obtain ⟨h1, -, h3⟩ := fractional_total_rules impl _ _ hq hf
  exact ⟨h1, by rw [h3, if_neg hn]⟩

/-- The score in terms of the score of the same receipt with total "35.35". -/
theorem calculatePoints_plainTotal (impl : F64 → ℤ) (r : Receipt) :
    calculatePoints impl r = wrapInt (calculatePoints impl { r with Total := "35.35" } +
      (roundDollarPoints impl r + quarterPoints r)) := by
  have h := calculatePoints_setTotal impl { r with Total := "35.35" } r.Total
  rw [(plain_total_rules impl r).1, (plain_total_rules impl r).2] at h
  have e : ({ ({ r with Total := "35.35" } : Receipt) with Total := r.Total } : Receipt) = r := rfl
  rw [e, zero_add, sub_zero] at h
  exact h

/-- The empty purchaseTime does not parse and earns nothing from rule 7. -/
theorem timeBonus_empty (r : Receipt) : timeBonus { r with PurchaseTime := "" } = 0 := rfl

/-- The score in terms of the score of the same receipt with the purchaseTime
"", which earns nothing from rule 7. -/
theorem calculatePoints_noTime (impl : F64 → ℤ) (r : Receipt) :
    calculatePoints impl r =
      wrapInt (calculatePoints impl { r with PurchaseTime := "" } + timeBonus r) := by
  have h := calculatePoints_setTime impl { r with PurchaseTime := "" } r.PurchaseTime
  have e : ({ ({ r with PurchaseTime := "" } : Receipt) with
      PurchaseTime := r.PurchaseTime } : Receipt) = r := rfl
  rw [e, timeBonus_empty, sub_zero] at h
  exact h

/-- The afternoon rule in terms of the text of purchaseTime and of the
result of `time.Parse`. -/
theorem timeBonus_cases (r : Receipt) :
    (timeBonus r = 10 ↔
      ∃ h m : ℕ, (h = 14 ∨ h = 15) ∧ m < 60 ∧ r.PurchaseTime = clockString h m) ∧
    (timeBonus r = 10 ↔
      ∃ t, Parse layoutClock r.PurchaseTime = (t, false) ∧ (t.Hour = 14 ∨ t.Hour = 15)) ∧
    (timeBonus r ≠ 10 → timeBonus r = 0) ∧
    ((Parse layoutClock r.PurchaseTime).2 = true → timeBonus r = 0) := by
  have hzero : ¬ (14 ≤ (zeroTime, true).1.Hour ∧ (zeroTime, true).1.Hour < 16) := by decide
  have key : timeBonus r = 10 →
      ∃ h m : ℕ, (h = 14 ∨ h = 15) ∧ m < 60 ∧ r.PurchaseTime = clockString h m := by
    intro hb
    rw [timeBonus_eq_ten_iff] at hb
    rcases Parse_cases layoutClock r.PurchaseTime with hz | ⟨f, hp, hh, -⟩
    · rw [hz] at hb
      exact absurd hb hzero
    · rw [hh] at hb
      obtain ⟨a, b, c, d, ha, hb2, hc, hd, hs, hhour, hmin, -, hm60, -, -, -⟩ :=
        parseClock_inv hp (by omega)
      refine ⟨10 * a + b, 10 * c + d, by omega, by omega, ?_⟩
      apply String.ext
      rw [hs]
      unfold clockString
      simp only
      rw [digitChar_congr (show (10 * a + b) / 10 % 10 = a % 10 by omega),
        digitChar_congr (show (10 * a + b) % 10 = b % 10 by omega),
        digitChar_congr (show (10 * c + d) / 10 % 10 = c % 10 by omega),
        digitChar_congr (show (10 * c + d) % 10 = d % 10 by omega)]
  have back : ∀ h m : ℕ, (h = 14 ∨ h = 15) → m < 60 → r.PurchaseTime = clockString h m →
      Parse layoutClock r.PurchaseTime = (⟨0, 1, 1, h, m⟩, false) := by
    intro h m hh hm hs
    rw [hs]
    exact Parse_clockString h m (by omega) hm
  refine ⟨⟨key, ?_⟩, ⟨?_, ?_⟩, ?_, ?_⟩
  · rintro ⟨h, m, hh, hm, hs⟩
    rw [timeBonus_eq_ten_iff, back h m hh hm hs]
    simp only [Time.Hour]
    omega
  · intro hb
    obtain ⟨h, m, hh, hm, hs⟩ := key hb
    exact ⟨_, back h m hh hm hs, by simp only [Time.Hour]; omega⟩
  · rintro ⟨t, ht, hh⟩
    rw [timeBonus_eq_ten_iff, ht]
    dsimp only
    omega
  · intro hne
    unfold timeBonus at hne ⊢
    simp only at hne ⊢
    split_ifs at hne ⊢ with h
    · exact absurd rfl hne
    · rfl
  · intro herr
    rcases Parse_cases layoutClock r.PurchaseTime with hz | ⟨f, -, -, hok⟩
    · unfold timeBonus
      simp only [ge_iff_le]
      rw [hz, if_neg hzero]
    · rw [hok] at herr
      exact absurd herr (by decide)

/-- Claim C1: for the receipt of scenario A (retailer "Target", purchaseDate
"2022-01-01", purchaseTime "13:01", total "35.35", items ("Pepsi - 12-oz",
"12.25") and ("Dasani", "12.25")), `calculatePoints` returns exactly 20,
whatever the implementation does for conversions that do not fit. -/
theorem scenarioA_points (impl : F64 → ℤ) : calculatePoints impl scenarioA = 20 :=
  (calculatePoints_congr impl implAmd64 scenarioA (by decide!)).trans (by decide!)

/-- Claim C2 fails as stated: a receipt with the single item ("abc", "-1000")
and empty other fields scores -119, its description rule contributing -200;
so `calculatePoints` is not at least 0 on every receipt. -/
theorem refund_points_negative :
    (calculatePoints implAmd64 refundReceipt = -119 ∧
      descriptionPoints implAmd64 refundReceipt = -200) ∧
    ¬ ∀ (impl : F64 → ℤ) (r : Receipt), 0 ≤ calculatePoints impl r := by
  have h : calculatePoints implAmd64 refundReceipt = -119 ∧
      descriptionPoints implAmd64 refundReceipt = -200 := by decide!
  refine ⟨h, fun hall => ?_⟩
  have := hall implAmd64 refundReceipt
  rw [h.1] at this
  exact absurd this (by norm_num)

/-- Claim C2, amended: for every receipt, rules 1, 2, 3, 4, 6 and 7 each
contribute at least 0, and `calculatePoints` returns the sum of the seven
contributions as a Go `int` (wrapped to 64 bits). When for every qualifying
item `math.Ceil(price * 0.2)` is a whole number from 0 to below `2 ^ 63`,
rule 5 adds a sum of non-negative numbers; when moreover the sum of the seven
contributions stays below `2 ^ 63`, rule 5 contributes at least 0 and
`calculatePoints` returns that sum, which is at least 0. -/
theorem points_nonneg (impl : F64 → ℤ) (r : Receipt) :
    (0 ≤ retailerPoints r ∧ 0 ≤ roundDollarPoints impl r ∧ 0 ≤ quarterPoints r ∧
      0 ≤ pairPoints r ∧ 0 ≤ oddDayPoints r ∧ 0 ≤ timeBonus r) ∧
    calculatePoints impl r = wrapInt (retailerPoints r + roundDollarPoints impl r +
      quarterPoints r + pairPoints r + descriptionPoints impl r + oddDayPoints r +
      timeBonus r) ∧
    ((∀ item ∈ r.Items, qualifies item = true →
        ∃ n : ℤ, itemCeil item = .fin n ∧ 0 ≤ n ∧ n < 2 ^ 63) →
      0 ≤ descriptionExact impl r.Items ∧
        (exactPoints impl r < 2 ^ 63 →
          0 ≤ descriptionPoints impl r ∧ 0 ≤ calculatePoints impl r ∧
            calculatePoints impl r = exactPoints impl r ∧
            calculatePoints impl r = retailerPoints r + roundDollarPoints impl r +
              quarterPoints r + pairPoints r + descriptionPoints impl r + oddDayPoints r +
              timeBonus r)) := by
  have hsum : calculatePoints impl r = wrapInt (retailerPoints r + roundDollarPoints impl r +
      quarterPoints r + pairPoints r + descriptionPoints impl r + oddDayPoints r +
      timeBonus r) := by
    unfold calculatePoints
    simp only [wrapInt_add_left, zero_add]
  have h1 := retailerPoints_nonneg r
  have h2 := roundDollarPoints_nonneg impl r
  have h3 := quarterPoints_nonneg r
  have h4 := pairPoints_nonneg r
  have h6 := oddDayPoints_nonneg r
  have h7 := timeBonus_nonneg r
  refine ⟨⟨h1, h2, h3, h4, h6, h7⟩, hsum, fun hprice => ?_⟩
  have h5 := descriptionExact_nonneg impl r.Items hprice
  refine ⟨h5, fun hsum => ?_⟩
  have hd : descriptionPoints impl r = descriptionExact impl r.Items := by
    rw [descriptionPoints_eq]
    apply wrapInt_of_range
    · linarith
    · unfold exactPoints at hsum; linarith
  have hc : calculatePoints impl r = exactPoints impl r := by
    rw [calculatePoints_eq]
    apply wrapInt_of_range
    · unfold exactPoints; linarith
    · exact hsum
  refine ⟨by rw [hd]; exact h5, ?_, hc, ?_⟩
  · rw [hc]; unfold exactPoints; linarith
  · rw [hc, hd]; rfl

/-- Scenario A meets the conditions of `points_nonneg`: its two items have
`math.Ceil(price * 0.2) = 3`, and it scores 20, the sum of its seven
contributions. -/
theorem points_nonneg_witness :
    0 ≤ calculatePoints implAmd64 scenarioA ∧
      calculatePoints implAmd64 scenarioA = exactPoints implAmd64 scenarioA ∧
      exactPoints implAmd64 scenarioA = 20 := by
  have h := ((points_nonneg implAmd64 scenarioA).2.2
    (by
      intro item hm _
      have hm2 : item = ⟨"Pepsi - 12-oz", "12.25"⟩ ∨ item = ⟨"Dasani", "12.25"⟩ := by
        simpa [scenarioA] using hm
      rcases hm2 with rfl | rfl
      · exact ⟨3, by decide!, by norm_num, by norm_num⟩
      · exact ⟨3, by decide!, by norm_num, by norm_num⟩)).2
    (by decide!)
  exact ⟨h.2.1, h.2.2.1, by decide!⟩

/-- Claim C3 fails as stated. The price "1e999" does not parse (a range
error) and is not taken as 0: the sum of `ceil(price × 0.2)` with that price
as 0 is 0, and the description rule adds the implementation's `int(+Inf)`,
the smallest `int` on amd64 and the largest on arm64. And on twelve
qualifying items of price "4e18" the sum is 9600000000000000000, while the
rule adds -8846744073709551616, the sum wrapped around in 64 bits. -/
theorem description_sum_counterexample :
    (descriptionSpec overRangePriceReceipt.Items = 0 ∧
      descriptionPoints implAmd64 overRangePriceReceipt = -9223372036854775808 ∧
      descriptionPoints implArm64 overRangePriceReceipt = 9223372036854775807) ∧
    (descriptionSpec bulkReceipt.Items = 9600000000000000000 ∧
      descriptionPoints implAmd64 bulkReceipt = -8846744073709551616) := by decide!

/-- Claim C3, amended: `calculatePoints` adds `descriptionPoints` to the
score. When for every qualifying item (trimmed description of a byte length
divisible by 3) `math.Ceil(price * 0.2)` is a whole number within the range
of `int`, what is added is, modulo `2 ^ 64`, the sum over the qualifying
items of `ceil(price × 0.2)` (the float64 product, the price taken as 0 when
it has a syntax error), and exactly that sum when it fits in an `int`. The
items that do not qualify add nothing, an empty list adds 0, and an item
whose price has a syntax error adds 0. -/
theorem description_rule (impl : F64 → ℤ) (r : Receipt) :
    calculatePoints impl r = wrapInt (retailerPoints r + roundDollarPoints impl r +
      quarterPoints r + pairPoints r + descriptionPoints impl r + oddDayPoints r +
      timeBonus r) ∧
    ((∀ item ∈ r.Items, qualifies item = true →
        ∃ n : ℤ, itemCeil item = .fin n ∧ -(2 : ℤ) ^ 63 ≤ n ∧ n < 2 ^ 63) →
      calculatePoints impl r = wrapInt (retailerPoints r + roundDollarPoints impl r +
        quarterPoints r + pairPoints r + descriptionSpec r.Items + oddDayPoints r +
        timeBonus r) ∧
      descriptionPoints impl r = wrapInt (descriptionSpec r.Items) ∧
      (-(2 : ℤ) ^ 63 ≤ descriptionSpec r.Items → descriptionSpec r.Items < 2 ^ 63 →
        descriptionPoints impl r = descriptionSpec r.Items)) ∧
    descriptionPoints impl { r with Items := r.Items.filter fun item => qualifies item } =
      descriptionPoints impl r ∧
    (∀ item pre post, qualifies item = false → r.Items = pre ++ item :: post →
      descriptionPoints impl r = descriptionPoints impl { r with Items := pre ++ post }) ∧
    (r.Items = [] → descriptionPoints impl r = 0 ∧
      calculatePoints impl r = wrapInt (retailerPoints r + roundDollarPoints impl r +
        quarterPoints r + oddDayPoints r + timeBonus r)) ∧
    (∀ item, (ParseFloat item.Price).2 = some .ErrSyntax →
      itemPoints impl item = 0 ∧ specItemPoints item = 0) := by
  have hsum : calculatePoints impl r = wrapInt (retailerPoints r + roundDollarPoints impl r +
      quarterPoints r + pairPoints r + descriptionPoints impl r + oddDayPoints r +
      timeBonus r) := by
    unfold calculatePoints
    simp only [wrapInt_add_left, zero_add]
  refine ⟨hsum, ?_, ?_, ?_, ?_, ?_⟩
  · intro hprice
    have hs := descriptionExact_eq_spec impl r.Items hprice
    refine ⟨?_, ?_, ?_⟩
    · rw [calculatePoints_eq, ← hs]
      rfl
    · rw [descriptionPoints_eq, hs]
    · intro hlo hhi
      rw [descriptionPoints_eq, hs]
      exact wrapInt_of_range hlo hhi
  · rw [descriptionPoints_eq, descriptionPoints_eq]
    simp only
    rw [descriptionExact_filter]
  · intro item pre post hq hitems
    rw [descriptionPoints_eq, descriptionPoints_eq, hitems]
    simp only
    rw [descriptionExact_append, descriptionExact_append, descriptionExact_cons, hq]
    simp
  · intro h
    have hd : descriptionPoints impl r = 0 := by
      rw [descriptionPoints_eq, h]
      simp only [descriptionExact, List.filter_nil, List.map_nil, List.sum_nil]
      decide
    have hp : pairPoints r = 0 := by
      unfold pairPoints
      rw [h]
      rfl
    refine ⟨hd, ?_⟩
    rw [hsum, hd, hp, add_zero, add_zero]
  · intro item h
    refine ⟨ itemPoints_of_syntax impl h, ?_⟩
    have hp : ParseFloat item.Price = (.fin 0, some .ErrSyntax) := by
      rcases ParseFloat_cases item.Price with h1 | h1 | ⟨neg, h1⟩
      · rw [h1] at h; simp at h
      · exact h1
      · rw [h1] at h; simp at h
    unfold specItemPoints priceOrZero
    rw [hp]
    simp [F64.mul, F64.round, F64.val, fifth_eq]

/-- Scenario A meets the condition of `description_rule`: its description
rule adds 3, the sum over its two items, of which only "Dasani" qualifies. -/
theorem description_rule_witness :
    descriptionPoints implAmd64 scenarioA = descriptionSpec scenarioA.Items ∧
      descriptionSpec scenarioA.Items = 3 ∧
      calculatePoints implAmd64 scenarioA = wrapInt (6 + 0 + 0 + 5 + 3 + 6 + 0) := by
  have h := (description_rule implAmd64 scenarioA).2.1
    (by
      intro item hm _
      have hm2 : item = ⟨"Pepsi - 12-oz", "12.25"⟩ ∨ item = ⟨"Dasani", "12.25"⟩ := by
        simpa [scenarioA] using hm
      rcases hm2 with rfl | rfl
      · exact ⟨3, by decide!, by norm_num, by norm_num⟩
      · exact ⟨3, by decide!, by norm_num, by norm_num⟩)
  refine ⟨h.2.2 (by decide!) (by decide!), by decide!, ?_⟩
  rw [h.1]
  decide!

/-- Claim C4 at the total "1e20": the total parses to the whole number
`10 ^ 20`, the quarter rule adds 25, and the round-dollar rule adds nothing,
because `int(total)` does not fit in 64 bits and its conversion back cannot
equal the total, whatever the implementation returns. -/
theorem huge_total_misses_round_dollar (impl : F64 → ℤ) :
    parsedTotal hugeTotalReceipt = .fin 100000000000000000000 ∧
      roundDollarPoints impl hugeTotalReceipt = 0 ∧ quarterPoints hugeTotalReceipt = 25 := by
  have hp : parsedTotal hugeTotalReceipt = .fin 100000000000000000000 := by decide!
  refine ⟨hp, ?_, by decide!⟩
  unfold roundDollarPoints
  simp only [hp]
  obtain ⟨h1, h2⟩ := toInt_range impl (.fin 100000000000000000000)
  obtain ⟨m, hm, hb⟩ := ofInt_of_range h1 h2
  rw [hm]
  simp only [F64.eq]
  rw [if_neg]
  simp only [decide_eq_true_eq]
  intro h
  have : (m : ℚ) = ((100000000000000000000 : ℤ) : ℚ) := by rw [← h]; norm_num
  have hm2 : m = 100000000000000000000 := by exact_mod_cast this
  rw [hm2] at hb
  norm_num at hb

/-- Claim C5: when the total parses to a finite number with a non-zero
fractional part, the round-dollar rule adds 0 and the quarter rule adds 25
exactly when the total is a whole multiple of 0.25; together they add 25 if
the fractional part is .25, .50 or .75 and 0 otherwise, and that amount is
what `calculatePoints` adds to the score for rules 2 and 3: the score is the
Go `int` sum of it and the other five contributions, and exceeds by it the
score of the same receipt with the total "35.35", which earns 0. -/
theorem fractional_total_points (impl : F64 → ℤ) (r : Receipt) (q : ℚ)
    (hq : parsedTotal r = .fin q) (hfrac : Int.fract q ≠ 0) :
    roundDollarPoints impl r = 0 ∧
      (quarterPoints r = 25 ↔ ∃ k : ℤ, q = k * (1 / 4)) ∧
      (roundDollarPoints impl r + quarterPoints r =
        if Int.fract q = 1 / 4 ∨ Int.fract q = 1 / 2 ∨ Int.fract q = 3 / 4 then 25 else 0) ∧
      calculatePoints impl r = wrapInt (retailerPoints r +
        (if Int.fract q = 1 / 4 ∨ Int.fract q = 1 / 2 ∨ Int.fract q = 3 / 4 then 25 else 0) +
        pairPoints r + descriptionPoints impl r + oddDayPoints r + timeBonus r) ∧
      calculatePoints impl r = wrapInt (calculatePoints impl { r with Total := "35.35" } +
        (if Int.fract q = 1 / 4 ∨ Int.fract q = 1 / 2 ∨ Int.fract q = 3 / 4 then 25 else 0)) := by
  have hsum : calculatePoints impl r = wrapInt (retailerPoints r + roundDollarPoints impl r +
      quarterPoints r + pairPoints r + descriptionPoints impl r + oddDayPoints r +
      timeBonus r) := by
    unfold calculatePoints
    simp only [wrapInt_add_left, zero_add]
  obtain ⟨h1, h2, h3⟩ := fractional_total_rules impl r q hq hfrac
  refine ⟨h1, h2, by rw [h1, h3, zero_add], ?_, ?_⟩
  · rw [hsum, h1, h3, add_zero]
  · rw [calculatePoints_plainTotal, h1, h3, zero_add]

/-- The totals "35.35" and "35.25" have a fractional part: scenario A scores
20 with the first and 45 with the second. -/
theorem fractional_total_points_witness :
    calculatePoints implAmd64 scenarioA = wrapInt (calculatePoints implAmd64 scenarioA + 0) ∧
      calculatePoints implAmd64 { scenarioA with Total := "35.25" } =
        wrapInt (calculatePoints implAmd64 scenarioA + 25) ∧
      calculatePoints implAmd64 { scenarioA with Total := "35.25" } = 45 := by
  have h := (fractional_total_points implAmd64 scenarioA (4975070213360845 / 2 ^ 47)
    (by decide!) (by decide!)).2.2.2.2
  have h2 := (fractional_total_points implAmd64 { scenarioA with Total := "35.25" } (141 / 4)
    (by decide!) (by decide!)).2.2.2.2
  rw [if_neg (by decide!)] at h
  rw [if_pos (by decide!)] at h2
  exact ⟨h, h2, by decide!⟩

/-- Claim C6 fails as stated: on a receipt that scores `2 ^ 63 - 1` with the
retailer "" (every conversion within range, so on every implementation), the
retailer "a", one character of `[a-zA-Z0-9]`, makes the score wrap around to
`-2 ^ 63`; the score with "a" minus the score with "" is `1 - 2 ^ 64`, not
1. -/
theorem retailer_difference_wraps :
    conversionsFit nearMaxReceipt = true ∧
    (∀ impl : F64 → ℤ,
      calculatePoints impl { nearMaxReceipt with Retailer := "" } = 9223372036854775807 ∧
      calculatePoints impl { nearMaxReceipt with Retailer := "a" } = -9223372036854775808) ∧
    "a".data.countP alnumClass = 1 ∧
    ¬ ∀ (impl : F64 → ℤ) (r : Receipt) (s : String),
      calculatePoints impl { r with Retailer := s } -
        calculatePoints impl { r with Retailer := "" } = s.data.countP alnumClass := by
  have hboth : ∀ impl : F64 → ℤ,
      calculatePoints impl { nearMaxReceipt with Retailer := "" } = 9223372036854775807 ∧
      calculatePoints impl { nearMaxReceipt with Retailer := "a" } = -9223372036854775808 :=
    fun impl =>
      ⟨(calculatePoints_congr impl implAmd64 _ (by decide!)).trans (by decide!),
       (calculatePoints_congr impl implAmd64 _ (by decide!)).trans (by decide!)⟩
  refine ⟨by decide!, hboth, by decide, fun hall => ?_⟩
  have h := hall implAmd64 nearMaxReceipt "a"
  rw [(hboth implAmd64).1, (hboth implAmd64).2] at h
  revert h
  decide

/-- Claim C6, amended: the retailer rule adds exactly the number of
characters of the retailer in `[a-zA-Z0-9]`, and 0 for the empty retailer:
the score is the Go `int` sum of that number and the other six
contributions. With the other fields fixed, the score with retailer `s` is
the Go `int` sum of the score with retailer `""` and that number: their
difference is that number modulo `2 ^ 64` (as a subtraction of Go `int`s),
and exactly that number when the sum stays below `2 ^ 63`. A string has
fewer than `2 ^ 63` bytes. -/
theorem retailer_rule (impl : F64 → ℤ) (r : Receipt) (s : String)
    (hlen : s.data.countP alnumClass < 2 ^ 63) :
    retailerPoints { r with Retailer := s } = s.data.countP alnumClass ∧
      retailerPoints { r with Retailer := "" } = 0 ∧
      calculatePoints impl { r with Retailer := s } =
        wrapInt (s.data.countP alnumClass + roundDollarPoints impl r + quarterPoints r +
          pairPoints r + descriptionPoints impl r + oddDayPoints r + timeBonus r) ∧
      calculatePoints impl { r with Retailer := s } =
        wrapInt (calculatePoints impl { r with Retailer := "" } +
          s.data.countP alnumClass) ∧
      wrapInt (calculatePoints impl { r with Retailer := s } -
        calculatePoints impl { r with Retailer := "" }) = s.data.countP alnumClass ∧
      (calculatePoints impl { r with Retailer := "" } + s.data.countP alnumClass < 2 ^ 63 →
        calculatePoints impl { r with Retailer := s } -
          calculatePoints impl { r with Retailer := "" } = s.data.countP alnumClass) := by
  have h1 : retailerPoints { r with Retailer := s } = s.data.countP alnumClass := by
    unfold retailerPoints
    rw [FindAllString_length]
  have h2 : retailerPoints { r with Retailer := "" } = 0 := by
    unfold retailerPoints
    rfl
  have hsum : calculatePoints impl { r with Retailer := s } =
      wrapInt (s.data.countP alnumClass + roundDollarPoints impl r + quarterPoints r +
        pairPoints r + descriptionPoints impl r + oddDayPoints r + timeBonus r) := by
    rw [← h1]
    unfold calculatePoints
    simp only [wrapInt_add_left, zero_add]
    rfl
  have h3 : calculatePoints impl { r with Retailer := s } =
      wrapInt (calculatePoints impl { r with Retailer := "" } +
        s.data.countP alnumClass) := by
    have h := calculatePoints_setRetailer impl { r with Retailer := "" } s
    have e : ({ ({ r with Retailer := "" } : Receipt) with Retailer := s } : Receipt) =
        { r with Retailer := s } := rfl
    have e2 : retailerPoints ({ ({ r with Retailer := "" } : Receipt) with Retailer := s }) =
        retailerPoints { r with Retailer := s } := rfl
    rw [e, e2, h1, h2, sub_zero] at h
    exact h
  have hc : ((s.data.countP alnumClass : ℕ) : ℤ) < 2 ^ 63 := by exact_mod_cast hlen
  have hc0 : (0 : ℤ) ≤ (s.data.countP alnumClass : ℕ) := Int.natCast_nonneg _
  have hr := wrapInt_range (exactPoints impl { r with Retailer := "" })
  rw [← calculatePoints_eq] at hr
  refine ⟨h1, h2, hsum, h3, ?_, ?_⟩
  · rw [h3]
    generalize ((s.data.countP alnumClass : ℕ) : ℤ) = c at hc hc0
    generalize calculatePoints impl { r with Retailer := "" } = x at hr
    unfold wrapInt
    omega
  · intro hsum
    rw [h3, wrapInt_of_range (by omega) hsum]
    ring

/-- The retailer "M&M Café 24" has seven characters in `[a-zA-Z0-9]`, and
scenario A with it scores 21, one more than the 20 of "Target". -/
theorem retailer_rule_witness :
    retailerPoints { scenarioA with Retailer := "M&M Café 24" } = 7 ∧
      calculatePoints implAmd64 { scenarioA with Retailer := "M&M Café 24" } -
        calculatePoints implAmd64 { scenarioA with Retailer := "" } = 7 ∧
      calculatePoints implAmd64 { scenarioA with Retailer := "M&M Café 24" } = 21 := by
  have h := retailer_rule implAmd64 scenarioA "M&M Café 24" (by decide!)
  refine ⟨?_, ?_, by decide!⟩
  · rw [h.1]
    decide!
  · rw [h.2.2.2.2.2 (by decide!)]
    decide!

/-- Claim C7: with `n` items the pair rule adds `5 * (n / 2)` to the score
`calculatePoints` returns (a Go `int` sum with the other six contributions);
an empty list adds 0; a receipt of `2 * k` items and the same receipt with
one more item both get `5 * k`, so that the extra item changes the score by
its own points under the description rule only, while an extra item after
`2 * k + 1` items adds 5 more. -/
theorem pair_rule (impl : F64 → ℤ) (r : Receipt) :
    pairPoints r = 5 * ((r.Items.length / 2 : ℕ) : ℤ) ∧
    calculatePoints impl r = wrapInt (retailerPoints r + roundDollarPoints impl r +
      quarterPoints r + 5 * ((r.Items.length / 2 : ℕ) : ℤ) + descriptionPoints impl r +
      oddDayPoints r + timeBonus r) ∧
    (r.Items = [] → pairPoints r = 0 ∧
      calculatePoints impl r = wrapInt (retailerPoints r + roundDollarPoints impl r +
        quarterPoints r + oddDayPoints r + timeBonus r)) ∧
    (∀ (k : ℕ) (item : Item), r.Items.length = 2 * k →
      pairPoints r = 5 * k ∧ pairPoints { r with Items := r.Items ++ [item] } = 5 * k ∧
      calculatePoints impl { r with Items := r.Items ++ [item] } =
        wrapInt (calculatePoints impl r + if qualifies item then itemPoints impl item else 0) ∧
      (qualifies item = false →
        calculatePoints impl { r with Items := r.Items ++ [item] } = calculatePoints impl r)) ∧
    ∀ (k : ℕ) (item : Item), r.Items.length = 2 * k + 1 →
      pairPoints r = 5 * k ∧ pairPoints { r with Items := r.Items ++ [item] } = 5 * k + 5 ∧
      calculatePoints impl { r with Items := r.Items ++ [item] } =
        wrapInt (calculatePoints impl r + 5 +
          if qualifies item then itemPoints impl item else 0) := by
  have hsum : calculatePoints impl r = wrapInt (retailerPoints r + roundDollarPoints impl r +
      quarterPoints r + pairPoints r + descriptionPoints impl r + oddDayPoints r +
      timeBonus r) := by
    unfold calculatePoints
    simp only [wrapInt_add_left, zero_add]
  have h1 : pairPoints r = 5 * ((r.Items.length / 2 : ℕ) : ℤ) := by
    unfold pairPoints
    push_cast
    ring
  have hone : ∀ item : Item, descriptionExact impl (r.Items ++ [item]) -
      descriptionExact impl r.Items = if qualifies item then itemPoints impl item else 0 := by
    intro item
    rw [descriptionExact_append, descriptionExact_cons]
    simp [descriptionExact]
  refine ⟨h1, ?_, ?_, ?_, ?_⟩
  · rw [hsum, h1]
  · intro h
    have hp : pairPoints r = 0 := by
      unfold pairPoints
      rw [h]
      rfl
    have hd : descriptionPoints impl r = 0 := by
      rw [descriptionPoints_eq, h]
      simp only [descriptionExact, List.filter_nil, List.map_nil, List.sum_nil]
      decide
    refine ⟨hp, ?_⟩
    rw [hsum, hp, hd, add_zero, add_zero]
  · intro k item hk
    have hp1 : pairPoints r = 5 * k := by
      unfold pairPoints
      rw [hk]
      push_cast
      omega
    have hp2 : pairPoints { r with Items := r.Items ++ [item] } = 5 * k := by
      unfold pairPoints
      simp only [List.length_append, List.length_singleton, hk]
      push_cast
      omega
    have hc : calculatePoints impl { r with Items := r.Items ++ [item] } =
        wrapInt (calculatePoints impl r +
          if qualifies item then itemPoints impl item else 0) := by
      rw [calculatePoints_setItems, hp1, hp2, hone, sub_self, zero_add]
    refine ⟨hp1, hp2, hc, fun hq => ?_⟩
    rw [hc, hq]
    simp only [Bool.false_eq_true, if_false, add_zero]
    exact calculatePoints_wrap impl r
  · intro k item hk
    have hp1 : pairPoints r = 5 * k := by
      unfold pairPoints
      rw [hk]
      push_cast
      omega
    have hp2 : pairPoints { r with Items := r.Items ++ [item] } = 5 * k + 5 := by
      unfold pairPoints
      simp only [List.length_append, List.length_singleton, hk]
      push_cast
      omega
    refine ⟨hp1, hp2, ?_⟩
    have e : ∀ X c t : ℤ, X + (c + 5 - c + t) = X + 5 + t := by
      intro X c t
      ring
    rw [calculatePoints_setItems, hp1, hp2, hone, e]

/-- Scenario A has two items: it earns 5 from the pair rule and scores 20; a
third item "Milk" that does not qualify for the description rule leaves the
score at 20, and a fourth one raises it to 25. -/
theorem pair_rule_witness :
    pairPoints scenarioA = 5 ∧
      calculatePoints implAmd64
        { scenarioA with Items := scenarioA.Items ++ [⟨"Milk", "1.00"⟩] } =
        calculatePoints implAmd64 scenarioA ∧
      calculatePoints implAmd64
        { scenarioA with Items := scenarioA.Items ++ [⟨"Milk", "1.00"⟩] ++ [⟨"Milk", "1.00"⟩] } =
        25 := by
  have h := (pair_rule implAmd64 scenarioA).2.2.2.1 1 ⟨"Milk", "1.00"⟩ (by decide)
  exact ⟨by simpa using h.1, h.2.2.2 (by decide!), by decide!⟩

/-- Claim C8: when purchaseDate is a valid calendar date written as
`YYYY-MM-DD`, the odd-day rule adds 6 if the day of the month is odd and 0 if
it is even; that amount is what `calculatePoints` adds to the score for rule
6: the score is the Go `int` sum of it and the other six contributions, and
exceeds by it the score of the same receipt with any valid date of even
day. -/
theorem odd_day_rule (impl : F64 → ℤ) (r : Receipt) (y m d : ℕ) (hy : y ≤ 9999)
    (hm : 1 ≤ m ∧ m ≤ 12) (hd : 1 ≤ d ∧ (d : ℤ) ≤ daysIn m y)
    (hdate : r.PurchaseDate = isoDate y m d) :
    oddDayPoints r = (if d % 2 = 1 then 6 else 0) ∧
    calculatePoints impl r = wrapInt (retailerPoints r + roundDollarPoints impl r +
      quarterPoints r + pairPoints r + descriptionPoints impl r +
      (if d % 2 = 1 then 6 else 0) + timeBonus r) ∧
    ∀ y2 m2 d2 : ℕ, validDate y2 m2 d2 → d2 % 2 = 0 →
      calculatePoints impl r =
        wrapInt (calculatePoints impl { r with PurchaseDate := isoDate y2 m2 d2 } +
          if d % 2 = 1 then 6 else 0) := by
  have hsum : calculatePoints impl r = wrapInt (retailerPoints r + roundDollarPoints impl r +
      quarterPoints r + pairPoints r + descriptionPoints impl r + oddDayPoints r +
      timeBonus r) := by
    unfold calculatePoints
    simp only [wrapInt_add_left, zero_add]
  have key : ∀ (r : Receipt) (y m d : ℕ), y ≤ 9999 → (1 ≤ m ∧ m ≤ 12) →
      (1 ≤ d ∧ (d : ℤ) ≤ daysIn m y) → r.PurchaseDate = isoDate y m d →
      oddDayPoints r = if d % 2 = 1 then 6 else 0 := by
    intro r y m d hy hm hd hdate
    unfold oddDayPoints
    rw [hdate, Parse_isoDate y m d hy hm hd]
    simp only [Time.Day]
    by_cases h : d % 2 = 1
    · rw [if_pos h, if_pos (by omega)]
    · rw [if_neg h, if_neg (by omega)]
  have h1 := key r y m d hy hm hd hdate
  refine ⟨h1, by rw [hsum, h1], ?_⟩
  intro y2 m2 d2 hv heven
  have h2 := key { r with PurchaseDate := isoDate y2 m2 d2 } y2 m2 d2 hv.1 hv.2.1 hv.2.2 rfl
  rw [if_neg (by omega)] at h2
  have h := calculatePoints_setDate impl { r with PurchaseDate := isoDate y2 m2 d2 }
    r.PurchaseDate
  have e : ({ ({ r with PurchaseDate := isoDate y2 m2 d2 } : Receipt) with
      PurchaseDate := r.PurchaseDate } : Receipt) = r := rfl
  rw [e, h2, sub_zero, h1] at h
  exact h

/-- Three valid dates: with January 1 scenario A scores 20, with February 29
of 2024 it scores 20 as well, and with March 20 it scores 14, which is 6
less. -/
theorem odd_day_rule_witness :
    oddDayPoints scenarioA = 6 ∧
      oddDayPoints { scenarioA with PurchaseDate := "2024-02-29" } = 6 ∧
      oddDayPoints { scenarioA with PurchaseDate := "2022-03-20" } = 0 ∧
      calculatePoints implAmd64 scenarioA =
        wrapInt (calculatePoints implAmd64 { scenarioA with PurchaseDate := "2022-03-20" } + 6) ∧
      calculatePoints implAmd64 { scenarioA with PurchaseDate := "2022-03-20" } = 14 :=
  ⟨(odd_day_rule implAmd64 scenarioA 2022 1 1 (by decide) (by decide) (by decide)
      (by decide)).1,
   (odd_day_rule implAmd64 { scenarioA with PurchaseDate := "2024-02-29" } 2024 2 29
     (by decide) (by decide) (by decide) (by decide)).1,
   (odd_day_rule implAmd64 { scenarioA with PurchaseDate := "2022-03-20" } 2022 3 20
     (by decide) (by decide) (by decide) (by decide)).1,
   (odd_day_rule implAmd64 scenarioA 2022 1 1 (by decide) (by decide) (by decide)
      (by decide)).2.2 2022 3 20 ⟨by decide, by decide, by decide⟩ (by decide),
   by decide!⟩

/-- Claim C9: the afternoon rule adds 10 exactly when purchaseTime is
`14:MM` or `15:MM` with `MM` from 00 to 59, which is exactly when it parses
as a 24-hour `HH:MM` time whose hour is 14 or 15; in every other case, and
whenever the parse fails, it adds 0. What it adds is added to the score
`calculatePoints` returns: the score is the Go `int` sum of the score of the
same receipt with the unparsable time "" and 10 in the first case, and it is
that score in every other case. On scenario A, "14:00" and "15:59" score 30,
"13:59" and "16:00" score 20. -/
theorem afternoon_rule (impl : F64 → ℤ) (r : Receipt) :
    (timeBonus r = 10 ↔
      ∃ h m : ℕ, (h = 14 ∨ h = 15) ∧ m < 60 ∧ r.PurchaseTime = clockString h m) ∧
    (timeBonus r = 10 ↔
      ∃ t, Parse layoutClock r.PurchaseTime = (t, false) ∧ (t.Hour = 14 ∨ t.Hour = 15)) ∧
    (timeBonus r ≠ 10 → timeBonus r = 0) ∧
    ((Parse layoutClock r.PurchaseTime).2 = true → timeBonus r = 0) ∧
    calculatePoints impl r = wrapInt (retailerPoints r + roundDollarPoints impl r +
      quarterPoints r + pairPoints r + descriptionPoints impl r + oddDayPoints r +
      timeBonus r) ∧
    ((∃ t, Parse layoutClock r.PurchaseTime = (t, false) ∧ (t.Hour = 14 ∨ t.Hour = 15)) →
      calculatePoints impl r =
        wrapInt (calculatePoints impl { r with PurchaseTime := "" } + 10)) ∧
    ((¬ ∃ t, Parse layoutClock r.PurchaseTime = (t, false) ∧ (t.Hour = 14 ∨ t.Hour = 15)) →
      calculatePoints impl r = calculatePoints impl { r with PurchaseTime := "" }) ∧
    (timeBonus { r with PurchaseTime := "14:00" } = 10 ∧
      timeBonus { r with PurchaseTime := "15:59" } = 10 ∧
      timeBonus { r with PurchaseTime := "13:59" } = 0 ∧
      timeBonus { r with PurchaseTime := "16:00" } = 0) ∧
    (calculatePoints impl { scenarioA with PurchaseTime := "14:00" } = 30 ∧
      calculatePoints impl { scenarioA with PurchaseTime := "15:59" } = 30 ∧
      calculatePoints impl { scenarioA with PurchaseTime := "13:59" } = 20 ∧
      calculatePoints impl { scenarioA with PurchaseTime := "16:00" } = 20) := by
  have hsum : calculatePoints impl r = wrapInt (retailerPoints r + roundDollarPoints impl r +
      quarterPoints r + pairPoints r + descriptionPoints impl r + oddDayPoints r +
      timeBonus r) := by
    unfold calculatePoints
    simp only [wrapInt_add_left, zero_add]
  obtain ⟨h1, h2, h3, h4⟩ := timeBonus_cases r
  refine ⟨h1, h2, h3, h4, hsum, ?_, ?_, ⟨rfl, rfl, rfl, rfl⟩, ?_⟩
  · intro hex
    rw [calculatePoints_noTime, h2.mpr hex]
  · intro hex
    have h0 : timeBonus r = 0 := h3 (fun h => hex (h2.mp h))
    rw [calculatePoints_noTime impl r, h0, add_zero]
    exact calculatePoints_wrap impl _
  · exact ⟨(calculatePoints_congr impl implAmd64 _ (by decide!)).trans (by decide!),
      (calculatePoints_congr impl implAmd64 _ (by decide!)).trans (by decide!),
      (calculatePoints_congr impl implAmd64 _ (by decide!)).trans (by decide!),
      (calculatePoints_congr impl implAmd64 _ (by decide!)).trans (by decide!)⟩

/-- Claim C11: round trip through the store. When the body decodes to `r` and
the generated identifier is `id`, `processReceipt` answers 200 with that
identifier and stores `r` under it; the path `/receipts/{id}/points` matches
the pattern of `getPoints`, which finds `r` and answers 200 with the points
`calculatePoints` gives for `r`, also after later inserts under other
identifiers. -/
theorem store_round_trip (impl : F64 → ℤ) (Decode : GoString → Option Receipt)
    (body : GoString) (r : Receipt) (id : GoString) (receipts : Store)
    (hdec : Decode body = some r) :
    (processReceipt Decode id body receipts).2 = ⟨200, .ResponseID id⟩ ∧
      (processReceipt Decode id body receipts).1 id = some r ∧
      route (pointsPath id) = .getPoints ∧
      getPoints impl (pointsPath id) (processReceipt Decode id body receipts).1 =
        some ((processReceipt Decode id body receipts).1,
          ⟨200, .PointsResponse (calculatePoints impl r)⟩) ∧
      ∀ later : List (GoString × Receipt), (∀ p ∈ later, p.1 ≠ id) →
        getPoints impl (pointsPath id)
            (later.foldl (fun s p => Store.set s p.1 p.2)
              (processReceipt Decode id body receipts).1) =
          some (later.foldl (fun s p => Store.set s p.1 p.2)
              (processReceipt Decode id body receipts).1,
            ⟨200, .PointsResponse (calculatePoints impl r)⟩) := by
  have hp : processReceipt Decode id body receipts =
      (receipts.set id r, ⟨200, .ResponseID id⟩) := by
    unfold processReceipt
    rw [hdec]
  have hs : (receipts.set id r) id = some r := by
    unfold Store.set
    rw [if_pos rfl]
  rw [hp]
  exact ⟨rfl, hs, route_pointsPath id, getPoints_found impl (pathID_pointsPath id) hs,
    fun later hne =>
      getPoints_found impl (pathID_pointsPath id) (foldl_set_keeps id r later hne _ hs)⟩

/-- A receipt stored under a sample identifier in the empty map is found
again: the answer is 200 with 20 points. -/
theorem store_round_trip_witness :
    (getPoints implAmd64 (pointsPath sampleID)
        (processReceipt (fun _ => some scenarioA) sampleID [] emptyStore).1).map Prod.snd =
      some ⟨200, .PointsResponse 20⟩ := by
  have h := (store_round_trip implAmd64 (fun _ => some scenarioA) [] scenarioA sampleID
    emptyStore rfl).2.2.2.1
  rw [h]
  decide!

/-- Claim C12: when the identifier is not a key of the map, `getPoints`
answers 404 "Receipt not found", with no points in the answer, and the map
afterwards is the map before; this for the path `/receipts/{id}/points` and
for every path the handler reads that identifier from. -/
theorem unknown_id_not_found (impl : F64 → ℤ) (receipts : Store) (id : GoString)
    (hkey : receipts id = none) :
    getPoints impl (pointsPath id) receipts =
        some (receipts, ⟨404, .text "Receipt not found"⟩) ∧
      ∀ path, pathID path = some id →
        getPoints impl path receipts = some (receipts, ⟨404, .text "Receipt not found"⟩) :=
  ⟨getPoints_missing impl (pathID_pointsPath id) hkey,
   fun _ hid => getPoints_missing impl hid hkey⟩

/-- The sample identifier is not a key of the empty map. -/
theorem unknown_id_not_found_witness :
    getPoints implAmd64 (pointsPath sampleID) emptyStore =
      some (emptyStore, ⟨404, .text "Receipt not found"⟩) :=
  (unknown_id_not_found implAmd64 emptyStore sampleID rfl).1

/-- Claim C13: when the body decodes to `r` and the generated identifier `id`
is not yet a key, the insert of `processReceipt` changes the entry of `id`
only: `id` maps to `r`, every other key maps to what it mapped to before, and
no entry is removed. -/
theorem insert_changes_one_entry (Decode : GoString → Option Receipt) (body : GoString)
    (r : Receipt) (id : GoString) (receipts : Store) (hdec : Decode body = some r)
    (hnew : receipts id = none) :
    (processReceipt Decode id body receipts).1 id = some r ∧
      (∀ k, k ≠ id → (processReceipt Decode id body receipts).1 k = receipts k) ∧
      ∀ k rc, receipts k = some rc →
        (processReceipt Decode id body receipts).1 k = some rc := by
  have hp : (processReceipt Decode id body receipts).1 = receipts.set id r := by
    unfold processReceipt
    rw [hdec]
  rw [hp]
  have hframe : ∀ k, k ≠ id → (receipts.set id r) k = receipts k := by
    intro k hk
    unfold Store.set
    rw [if_neg hk]
  refine ⟨?_, hframe, ?_⟩
  · unfold Store.set
    rw [if_pos rfl]
  · intro k rc hk
    have hne : k ≠ id := by
      intro he
      rw [he, hnew] at hk
      cases hk
    rw [hframe k hne, hk]

/-- An insert into a map with one entry keeps that entry. -/
theorem insert_changes_one_entry_witness :
    (processReceipt (fun _ => some refundReceipt) sampleID []
        (emptyStore.set (bytes "a") scenarioA)).1 sampleID = some refundReceipt ∧
      (processReceipt (fun _ => some refundReceipt) sampleID []
        (emptyStore.set (bytes "a") scenarioA)).1 (bytes "a") = some scenarioA := by
  have h := insert_changes_one_entry (fun _ => some refundReceipt) [] refundReceipt sampleID
    (emptyStore.set (bytes "a") scenarioA) rfl (by decide)
  exact ⟨h.1, h.2.2 (bytes "a") scenarioA (by decide)⟩

/-- Claim C14: when the body does not decode, `processReceipt` answers 400
"Invalid request" and the map afterwards is the map before. -/
theorem bad_body_rejected (Decode : GoString → Option Receipt) (body : GoString)
    (id : GoString) (receipts : Store) (hdec : Decode body = none) :
    processReceipt Decode id body receipts = (receipts, ⟨400, .text "Invalid request"⟩) := by
  unfold processReceipt
  rw [hdec]

/-- A body that does not decode, on the empty map. -/
theorem bad_body_rejected_witness :
    processReceipt (fun _ => none) sampleID (bytes "not json") emptyStore =
      (emptyStore, ⟨400, .text "Invalid request"⟩) :=
  bad_body_rejected (fun _ => none) (bytes "not json") sampleID emptyStore rfl

/-- Claim C15: when purchaseDate is not a valid calendar date written as
`YYYY-MM-DD`, `time.Parse` returns the zero time, whose day of the month is
1, and the odd-day rule adds 6 to the score `calculatePoints` returns: the
score is the Go `int` sum of 6 and the other six contributions, 6 more than
for the same receipt with any valid date of even day. -/
theorem bad_date_counts_as_odd (impl : F64 → ℤ) (r : Receipt)
    (hbad : ¬ ∃ y m d : ℕ, validDate y m d ∧ r.PurchaseDate = isoDate y m d) :
    Parse layoutDate r.PurchaseDate = (zeroTime, true) ∧ zeroTime.Day = 1 ∧
      oddDayPoints r = 6 ∧
      calculatePoints impl r = wrapInt (retailerPoints r + roundDollarPoints impl r +
        quarterPoints r + pairPoints r + descriptionPoints impl r + 6 + timeBonus r) ∧
      ∀ y2 m2 d2 : ℕ, validDate y2 m2 d2 → d2 % 2 = 0 →
        calculatePoints impl r =
          wrapInt (calculatePoints impl { r with PurchaseDate := isoDate y2 m2 d2 } + 6) := by
  have hsum : calculatePoints impl r = wrapInt (retailerPoints r + roundDollarPoints impl r +
      quarterPoints r + pairPoints r + descriptionPoints impl r + oddDayPoints r +
      timeBonus r) := by
    unfold calculatePoints
    simp only [wrapInt_add_left, zero_add]
  have herr : (Parse layoutDate r.PurchaseDate).2 = true := by
    cases h : (Parse layoutDate r.PurchaseDate).2 with
    | true => rfl
    | false => exact absurd ((Parse_date_ok_iff r.PurchaseDate).mp h) hbad
  have hz := Parse_error_zero layoutDate r.PurchaseDate herr
  have h6 : oddDayPoints r = 6 := by
    unfold oddDayPoints
    rw [hz]
    rfl
  refine ⟨hz, rfl, h6, by rw [hsum, h6], ?_⟩
  intro y2 m2 d2 hv heven
  have h2 : oddDayPoints { r with PurchaseDate := isoDate y2 m2 d2 } = 0 := by
    unfold oddDayPoints
    simp only
    rw [Parse_isoDate y2 m2 d2 hv.1 hv.2.1 hv.2.2]
    simp only [Time.Day]
    rw [if_neg (by omega)]
  have h := calculatePoints_setDate impl { r with PurchaseDate := isoDate y2 m2 d2 }
    r.PurchaseDate
  have e : ({ ({ r with PurchaseDate := isoDate y2 m2 d2 } : Receipt) with
      PurchaseDate := r.PurchaseDate } : Receipt) = r := rfl
  rw [e, h2, sub_zero, h6] at h
  exact h

/-- The dates "", "abc", "2022-02-30" and "2022-01-2" do not parse and earn
6 from the odd-day rule; with "2022-02-30" scenario A scores 20, which is 6
more than the 14 it scores with the even day "2022-03-20". -/
theorem bad_date_counts_as_odd_witness :
    oddDayPoints { scenarioA with PurchaseDate := "" } = 6 ∧
      oddDayPoints { scenarioA with PurchaseDate := "abc" } = 6 ∧
      oddDayPoints { scenarioA with PurchaseDate := "2022-02-30" } = 6 ∧
      oddDayPoints { scenarioA with PurchaseDate := "2022-01-2" } = 6 ∧
      calculatePoints implAmd64 { scenarioA with PurchaseDate := "2022-02-30" } =
        wrapInt (calculatePoints implAmd64
          { scenarioA with PurchaseDate := "2022-03-20" } + 6) ∧
      calculatePoints implAmd64 { scenarioA with PurchaseDate := "2022-02-30" } = 20 :=
  ⟨(bad_date_counts_as_odd implAmd64 { scenarioA with PurchaseDate := "" }
      (not_valid_of_error (by decide))).2.2.1,
   (bad_date_counts_as_odd implAmd64 { scenarioA with PurchaseDate := "abc" }
      (not_valid_of_error (by decide))).2.2.1,
   (bad_date_counts_as_odd implAmd64 { scenarioA with PurchaseDate := "2022-02-30" }
      (not_valid_of_error (by decide))).2.2.1,
   (bad_date_counts_as_odd implAmd64 { scenarioA with PurchaseDate := "2022-01-2" }
      (not_valid_of_error (by decide))).2.2.1,
   (bad_date_counts_as_odd implAmd64 { scenarioA with PurchaseDate := "2022-02-30" }
      (not_valid_of_error (by decide))).2.2.2.2 2022 3 20 ⟨by decide, by decide, by decide⟩
      (by decide),
   by decide!⟩

/-- Claim C16 fails as stated: an item with the blank description " \t" and
the price "1e300" qualifies, its price parses, `ceil(price × 0.2)` is at
least `2 ^ 63`, and what the rule adds is an `int`, below `2 ^ 63` on every
implementation (the smallest `int` on amd64, the largest on arm64). -/
theorem blank_item_huge_price :
    (∀ c ∈ blankHugeItem.ShortDescription.data, isSpace c = true) ∧
      qualifies blankHugeItem = true ∧
      (ParseFloat blankHugeItem.Price).2 = none ∧
      (2 : ℤ) ^ 63 ≤ specItemPoints blankHugeItem ∧
      itemPoints implAmd64 blankHugeItem = -9223372036854775808 ∧
      itemPoints implArm64 blankHugeItem = 9223372036854775807 ∧
      ∀ impl : F64 → ℤ, itemPoints impl blankHugeItem < 2 ^ 63 := by
  refine ⟨by decide, by decide!, by decide!, by decide!, by decide!, by decide!, ?_⟩
  intro impl
  exact (toInt_range impl _).2

/-- Claim C16, amended: an item whose shortDescription is empty or consists
of white space only has trimmed length 0 and qualifies for the description
rule whatever its price; the loop adds its `itemPoints` to the running sum,
so a receipt that holds the item scores, as a Go `int`, the score of the other
rules and items plus these `itemPoints`; and they are `ceil(price × 0.2)` (the
float64 product) when `math.Ceil(price * 0.2)` is a whole number within the
range of `int`. -/
theorem blank_description_qualifies (impl : F64 → ℤ) (item : Item)
    (hblank : ∀ c ∈ item.ShortDescription.data, isSpace c = true) :
    TrimSpace item.ShortDescription.data = [] ∧ qualifies item = true ∧
      (∀ rest acc, descriptionLoop impl (item :: rest) acc =
        descriptionLoop impl rest (wrapInt (acc + itemPoints impl item))) ∧
      (∀ (r : Receipt) (pre post : List Item), r.Items = pre ++ item :: post →
        descriptionPoints impl r =
          wrapInt (descriptionPoints impl { r with Items := pre ++ post } +
            itemPoints impl item) ∧
        calculatePoints impl r = wrapInt (retailerPoints r + roundDollarPoints impl r +
          quarterPoints r + pairPoints r +
          (descriptionPoints impl { r with Items := pre ++ post } + itemPoints impl item) +
          oddDayPoints r + timeBonus r)) ∧
      ((∃ n : ℤ, itemCeil item = .fin n ∧ -(2 : ℤ) ^ 63 ≤ n ∧ n < 2 ^ 63) →
        itemPoints impl item = specItemPoints item ∧
          ∃ q, (ParseFloat item.Price).1 = .fin q ∧
            itemPoints impl item = ⌈(F64.mul (.fin q) fifth).val⌉) := by
  have hq := qualifies_of_blank hblank
  refine ⟨TrimSpace_of_blank hblank, hq, ?_, ?_, ?_⟩
  · intro rest acc
    rw [descriptionLoop, if_pos hq]
  · intro r pre post hitems
    have hsum : calculatePoints impl r = wrapInt (retailerPoints r + roundDollarPoints impl r +
        quarterPoints r + pairPoints r + descriptionPoints impl r + oddDayPoints r +
        timeBonus r) := by
      unfold calculatePoints
      simp only [wrapInt_add_left, zero_add]
    have hd : descriptionPoints impl r =
        wrapInt (descriptionPoints impl { r with Items := pre ++ post } +
          itemPoints impl item) := by
      rw [descriptionPoints_eq, descriptionPoints_eq, hitems, wrapInt_add_left]
      simp only
      have e : ∀ a b c : ℤ, a + (b + c) = a + c + b := by
        intro a b c
        ring
      rw [descriptionExact_append, descriptionExact_append, descriptionExact_cons, if_pos hq, e]
    refine ⟨hd, ?_⟩
    rw [hsum, hd]
    unfold wrapInt
    omega
  · rintro ⟨n, hn, hlo, hhi⟩
    obtain ⟨e1, e2, q, hp, hc⟩ := itemPoints_of_ceil impl hn hlo hhi
    exact ⟨by rw [e1, e2], q, hp, by rw [e1, hc]⟩

/-- The empty description and a description of blanks qualify; with the
price "12.25" the item earns 3, and a receipt with that item alone scores
3 more than the 81 of the receipt without items. -/
theorem blank_description_qualifies_witness :
    qualifies ⟨"", "12.25"⟩ = true ∧ qualifies ⟨" \t ", "12.25"⟩ = true ∧
      itemPoints implAmd64 ⟨" \t ", "12.25"⟩ = 3 ∧
      calculatePoints implAmd64 { refundReceipt with Items := [⟨" \t ", "12.25"⟩] } = 84 := by
  have h1 := blank_description_qualifies implAmd64 ⟨"", "12.25"⟩ (by decide)
  have h2 := blank_description_qualifies implAmd64 ⟨" \t ", "12.25"⟩ (by decide)
  refine ⟨h1.2.1, h2.2.1, ?_, ?_⟩
  · have h3 := h2.2.2.2.2 ⟨3, by decide!, by norm_num, by norm_num⟩
    rw [h3.1]
    decide!
  · have h4 := (h2.2.2.2.1 { refundReceipt with Items := [⟨" \t ", "12.25"⟩] } [] [] rfl).2
    rw [h4]
    decide!

/-- Claim C17: a permutation of the items leaves the score as it is, and the
pair rule and the description rule with it. -/
theorem items_order_irrelevant (impl : F64 → ℤ) (r : Receipt) (items : List Item)
    (hperm : items.Perm r.Items) :
    calculatePoints impl { r with Items := items } = calculatePoints impl r ∧
      pairPoints { r with Items := items } = pairPoints r ∧
      descriptionPoints impl { r with Items := items } = descriptionPoints impl r := by
  have hpair : pairPoints { r with Items := items } = pairPoints r := by
    unfold pairPoints
    simp only [hperm.length_eq]
  have hdesc : descriptionExact impl items = descriptionExact impl r.Items := by
    unfold descriptionExact
    exact ((hperm.filter _).map _).sum_eq
  refine ⟨?_, hpair, ?_⟩
  · rw [calculatePoints_eq, calculatePoints_eq]
    unfold exactPoints
    rw [hpair]
    simp only
    rw [hdesc]
    rfl
  · rw [descriptionPoints_eq, descriptionPoints_eq]
    simp only
    rw [hdesc]

/-- Scenario A with its two items swapped scores the same. -/
theorem items_order_irrelevant_witness :
    calculatePoints implAmd64
        { scenarioA with Items := [⟨"Dasani", "12.25"⟩, ⟨"Pepsi - 12-oz", "12.25"⟩] } =
      calculatePoints implAmd64 scenarioA :=
  (items_order_irrelevant implAmd64 scenarioA
    [⟨"Dasani", "12.25"⟩, ⟨"Pepsi - 12-oz", "12.25"⟩] (List.Perm.swap _ _ _)).1

/-- Claim C18 at the path `/receipts/abc`: the path starts with `/receipts/`
and matches the pattern of `getPoints` (it is in canonical form, so the mux
hands it to that handler), the slice `path[10 : len(path) - 7]` has its
upper index 6 below its lower index 10, and the handler panics instead of
answering 200 or 404. -/
theorem short_path_panics (impl : F64 → ℤ) (receipts : Store) :
    (bytes "/receipts/").isPrefixOf (bytes "/receipts/abc") = true ∧
      route (bytes "/receipts/abc") = .getPoints ∧
      pathID (bytes "/receipts/abc") = none ∧
      getPoints impl (bytes "/receipts/abc") receipts = none := by
  refine ⟨by decide, by decide, by decide, ?_⟩
  rw [getPoints_eq_none_iff]
  decide

/-- Claim C19: for every identifier and every tail of seven bytes, the path
`/receipts/` + id + tail gives `getPoints` the same identifier as
`/receipts/` + id + `/points`, and so the same answer; with a non-empty
identifier the path matches the pattern of `getPoints`. -/
theorem last_seven_bytes_ignored (impl : F64 → ℤ) (receipts : Store) (id tail : GoString)
    (h : tail.length = 7) :
    pathID (bytes "/receipts/" ++ id ++ tail) = some id ∧
      pathID (pointsPath id) = some id ∧
      getPoints impl (bytes "/receipts/" ++ id ++ tail) receipts =
        getPoints impl (pointsPath id) receipts ∧
      (id ≠ [] → route (bytes "/receipts/" ++ id ++ tail) = .getPoints) := by
  have h1 := pathID_append id tail h
  have h2 := pathID_pointsPath id
  refine ⟨h1, h2, ?_, ?_⟩
  · unfold getPoints
    rw [h1, h2]
  · intro hne
    apply route_long
    have : 0 < id.length := List.length_pos.mpr hne
    simp only [List.length_append, bytes_receipts_length, h]
    omega

/-- The tail `/scores` instead of `/points`. -/
theorem last_seven_bytes_ignored_witness :
    pathID (bytes "/receipts/" ++ sampleID ++ bytes "/scores") = some sampleID ∧
      getPoints implAmd64 (bytes "/receipts/" ++ sampleID ++ bytes "/scores") emptyStore =
        getPoints implAmd64 (pointsPath sampleID) emptyStore := by
  have h := last_seven_bytes_ignored implAmd64 emptyStore sampleID (bytes "/scores") (by decide)
  exact ⟨h.1, h.2.2.1⟩

end ReceiptProcessor
